import Mathlib

/-!
Verification of the minesweeper board engine and command parser
(src/src/main.rs) against its natural-language specification.

Modelling conventions:
* Rust machine integers are modelled as `Nat` with explicit wrap-around
  (`% 65536` for `u16` operations, `% 256` for `u8` operations) exactly at
  the places the source performs arithmetic in those widths.
* `Vec<BoardCell>` is modelled as a total function `Nat → BoardCell`
  together with pointwise update; every index the engine dereferences under
  the hypotheses of the claims below is within the bounds of the vector
  (the wrapped index is always `< 65536`, and it is shown to be
  `< width * height` whenever that is needed).
* Rust strings are modelled as `List Char`; `to_lowercase` is modelled on
  the ASCII range, and `trim` with the ASCII whitespace characters.
* The random shuffle in `generate_world` is modelled by passing the
  shuffled position list as an explicit argument; theorems hypothesise
  that it is a permutation of `List.range (width * height)`.
-/

namespace Minesweeper

/-! ## Command parser: strings and integer parsing -/

/-- ASCII whitespace, the fragment of Rust `char::is_whitespace` relevant
to the inputs of this program. -/
def isWhitespaceChar (c : Char) : Bool :=
  c = ' ' || c = '\t' || c = '\n' || c = '\r'

/-- ASCII lowercasing, the fragment of Rust `str::to_lowercase` relevant
to the inputs of this program. -/
def toLowerChar (c : Char) : Char :=
  if 'A' ≤ c ∧ c ≤ 'Z' then Char.ofNat (c.toNat + 32) else c

/-- Rust `str::trim`: remove leading and trailing whitespace. -/
def trimChars (l : List Char) : List Char :=
  ((l.dropWhile isWhitespaceChar).reverse.dropWhile isWhitespaceChar).reverse

/-- Rust `str::split_once(c)`: split at the first occurrence of `c`,
returning the parts strictly before and strictly after it. -/
def splitOnceChar (c : Char) : List Char → Option (List Char × List Char)
  | [] => none
  | a :: as =>
    if a = c then some ([], as)
    else (splitOnceChar c as).map (fun p => (a :: p.1, p.2))

/-- Rust `std::num::ParseIntError` kinds reachable from unsigned parsing. -/
inductive ParseIntError where
  | empty
  | invalidDigit
  | posOverflow
deriving DecidableEq

/-- Digit-accumulation loop of Rust `from_str_radix` for an unsigned type
with maximum value `bound`: each character must be a digit, and the
accumulator may never exceed `bound`. -/
def parseDigits (bound : Nat) : List Char → Nat → Except ParseIntError Nat
  | [], acc => .ok acc
  | c :: cs, acc =>
    if c.isDigit then
      let acc1 := acc * 10 + (c.toNat - 48)
      if acc1 > bound then .error .posOverflow else parseDigits bound cs acc1
    else .error .invalidDigit

/-- Rust `str::parse::<uN>` for an unsigned type with maximum value `bound`:
empty input is `Empty`, an optional leading plus sign is allowed but must be
followed by at least one digit. -/
def parseUnsigned (bound : Nat) (l : List Char) : Except ParseIntError Nat :=
  match l with
  | [] => .error .empty
  | c :: cs =>
    if c = '+' then
      match cs with
      | [] => .error .invalidDigit
      | _ => parseDigits bound cs 0
    else parseDigits bound (c :: cs) 0

/-- Rust `str::parse::<u16>`. -/
def parse_u16 (l : List Char) : Except ParseIntError Nat := parseUnsigned 65535 l

/-- Rust `str::parse::<u32>`. -/
def parse_u32 (l : List Char) : Except ParseIntError Nat := parseUnsigned 4294967295 l

/-! ## Command parser: commands -/

/-- `struct Coordinate(u16, u16)`; the first component is the row, the
second the column. -/
structure Coordinate where
  row : Nat
  col : Nat
deriving DecidableEq

/-- `enum BoardCommandError`. -/
inductive BoardCommandError where
  | MalformedString
  | MalformedCoordinate
  | CoordinateParsing (err : ParseIntError)
  | NotFound
deriving DecidableEq

/-- `enum BoardCommand`. -/
inductive BoardCommand where
  | Pass
  | Quit
  | ClearMark (c : Coordinate)
  | SetMarkFlag (c : Coordinate)
  | SetMarkNote (c : Coordinate)
  | Explore (c : Coordinate)
deriving DecidableEq

/-- `impl TryFrom<&str> for BoardCommand` (src/src/main.rs lines 98-141). -/
def BoardCommand.try_from (input : List Char) : Except BoardCommandError BoardCommand :=
  let value := trimChars (input.map toLowerChar)
  if value = "pass".data then .ok .Pass
  else if value = "quit".data then .ok .Quit
  else
    match splitOnceChar '(' value with
    | none => .error .MalformedString
    | some command_coordinate =>
      let value := trimChars command_coordinate.2
      match splitOnceChar ',' value with
      | none => .error .MalformedCoordinate
      | some (value_x, value_y) =>
        match parse_u16 value_x with
        | .error err => .error (.CoordinateParsing err)
        | .ok vx =>
          let value_y := trimChars (value_y.filter (fun c => !(c = '\n' || c = ')')))
          match parse_u16 value_y with
          | .error err => .error (.CoordinateParsing err)
          | .ok vy =>
            let command := trimChars command_coordinate.1
            if command = "clear".data then .ok (.ClearMark ⟨vx, vy⟩)
            else if command = "flag".data then .ok (.SetMarkFlag ⟨vx, vy⟩)
            else if command = "note".data then .ok (.SetMarkNote ⟨vx, vy⟩)
            else if command = "explore".data then .ok (.Explore ⟨vx, vy⟩)
            else .error .NotFound

/-! ## Game configuration -/

/-- `struct GameConfiguration { width: u16, height: u16, total_mines: u32 }`. -/
structure GameConfiguration where
  width : Nat
  height : Nat
  total_mines : Nat
deriving DecidableEq

/-- `enum GameConfigurationError`. -/
inductive GameConfigurationError where
  | MalformedString
  | MalformedInteger (err : ParseIntError)
deriving DecidableEq

/-- `impl TryFrom<&str> for GameConfiguration` (src/src/main.rs lines 208-231).
The source builds `value.split_once(" ").ok_or(MalformedString)` and then
immediately calls `.unwrap()` on it, so an input without a space makes the
function panic instead of returning the error; the outer `Option` models
this, `none` being the panic. -/
def GameConfiguration.try_from (input : List Char) :
    Option (Except GameConfigurationError GameConfiguration) :=
  match splitOnceChar ' ' input with
  | none => none
  | some (dimensions, mines) =>
    some (do
      let w ← (parse_u16 (trimChars dimensions)).mapError .MalformedInteger
      let h ← (parse_u16 (trimChars dimensions)).mapError .MalformedInteger
      let m ← (parse_u32 (trimChars mines)).mapError .MalformedInteger
      return ⟨w, h, m⟩)

/-! ## Board cells -/

/-- `enum Mark`. -/
inductive Mark where
  | NoMark
  | MarkNote
  | MarkFlag
deriving DecidableEq

/-- `enum BoardCell`.  `NeighbourMines(u8)` and `CellInfo(Mark, NeighbourMines)`
are inlined: `NoMine mark n` is `NoMine(CellInfo(mark, NeighbourMines(n)))`
and `Explored n` is `Explored(NeighbourMines(n))`. -/
inductive BoardCell where
  | Explored (n : Nat)
  | NoMine (mark : Mark) (n : Nat)
  | Mine (mark : Mark)
deriving DecidableEq

/-- `enum GameResolve`. -/
inductive GameResolve where
  | Quit
  | Continue
  | MineHit
  | AllMinesDiscovered
deriving DecidableEq

/-- `struct GameBoard`; the cell vector is modelled as a total function
from linear indices. -/
structure GameBoard where
  game_configuration : GameConfiguration
  mines_discovered : Nat
  cells : Nat → BoardCell

/-- Pointwise update of the cell vector: `self.cells[i] = v`. -/
def updateCells (cells : Nat → BoardCell) (i : Nat) (v : BoardCell) : Nat → BoardCell :=
  fun j => if j = i then v else cells j

/-- `GameBoard::new` (lines 248-257): all cells concealed-safe with mark
`NoMark` and neighbour count 0, flagged-mine counter 0. -/
def GameBoard.new (game_configuration : GameConfiguration) : GameBoard where
  game_configuration := game_configuration
  mines_discovered := 0
  cells := fun _ => .NoMine .NoMark 0

/-- `GameBoard::compute_linear_index` (lines 391-393):
`(coordinate.0 * w + coordinate.1) as usize` where the multiplication and
addition are performed on `u16`, hence wrap modulo 65536. -/
def compute_linear_index (cfg : GameConfiguration) (coordinate : Coordinate) : Nat :=
  ((coordinate.row * cfg.width) % 65536 + coordinate.col) % 65536

/-- The nine `(i, j)` offset pairs traversed by the two nested
`for i in -1..=1 { for j in -1..=1 { .. } }` loops of
`GameBoard::add_neighbours`, in loop order. -/
def neighbour_offsets : List (Int × Int) :=
  [(-1, -1), (-1, 0), (-1, 1), (0, -1), (0, 0), (0, 1), (1, -1), (1, 0), (1, 1)]

/-- One loop body of `GameBoard::add_neighbours`: skip the center and any
out-of-bounds offset, otherwise push the neighbour.  The `Vec` work-list is
modelled with its top (last pushed element) at the head of the list, so
`push` is cons. -/
def push_neighbour (cfg : GameConfiguration) (center : Coordinate)
    (queue : List Coordinate) (ij : Int × Int) : List Coordinate :=
  let x : Int := (center.row : Int) + ij.1
  let y : Int := (center.col : Int) + ij.2
  if (x = (center.row : Int) ∧ y = (center.col : Int)) ∨ x < 0 ∨ y < 0 ∨
      x ≥ (cfg.height : Int) ∨ y ≥ (cfg.width : Int) then queue
  else ⟨x.toNat, y.toNat⟩ :: queue

/-- `GameBoard::add_neighbours` (lines 411-429). -/
def add_neighbours (cfg : GameConfiguration) (queue : List Coordinate)
    (center : Coordinate) : List Coordinate :=
  neighbour_offsets.foldl (push_neighbour cfg center) queue

/-- Is a cell in the `Explored` state? -/
def BoardCell.isExplored : BoardCell → Bool
  | .Explored _ => true
  | _ => false

/-- Is a cell in the `NoMine` (concealed-safe) state? -/
def BoardCell.isNoMine : BoardCell → Bool
  | .NoMine _ _ => true
  | _ => false

/-- Is a cell in the `Mine` (concealed-mine) state? -/
def BoardCell.isMine : BoardCell → Bool
  | .Mine _ => true
  | _ => false

/-- Number of concealed-safe cells among the first 65536 linear indices;
this is the termination measure of the flood-fill work-list loop (every
index the loop dereferences is a `u16` value, hence `< 65536`). -/
def noMineCount (cells : Nat → BoardCell) : Nat :=
  ((Finset.range 65536).filter (fun i => (cells i).isNoMine = true)).card

theorem compute_linear_index_lt (cfg : GameConfiguration) (c : Coordinate) :
    compute_linear_index cfg c < 65536 :=
  Nat.mod_lt _ (by omega)

theorem noMineCount_update_lt (cells : Nat → BoardCell) (li : Nat) (hli : li < 65536)
    (mk : Mark) (n : Nat) (h : cells li = .NoMine mk n) :
    noMineCount (updateCells cells li (.Explored n)) < noMineCount cells := by
  apply Finset.card_lt_card
  constructor
  · intro i hi
    rw [Finset.mem_filter] at hi ⊢
    refine ⟨hi.1, ?_⟩
    rcases hi with ⟨_, hno⟩
    by_cases hil : i = li
    · subst hil
      simp [updateCells, BoardCell.isNoMine] at hno
    · simpa [updateCells, hil] using hno
  · intro hsub
    have hmem : li ∈ (Finset.range 65536).filter (fun i => (cells i).isNoMine = true) := by
      rw [Finset.mem_filter]
      exact ⟨Finset.mem_range.mpr hli, by simp [h, BoardCell.isNoMine]⟩
    have := hsub hmem
    rw [Finset.mem_filter] at this
    simp [updateCells, BoardCell.isNoMine] at this

/-- `GameBoard::explore_cells` (lines 395-409): the flood-fill work-list
loop, operating on the cell vector.  The work-list is a stack with its top
at the head (see `push_neighbour`). -/
def explore_cells (cfg : GameConfiguration) (cells : Nat → BoardCell)
    (queue : List Coordinate) : Nat → BoardCell :=
  match queue with
  | [] => cells
  | cell_coordinate :: rest =>
    match h : cells (compute_linear_index cfg cell_coordinate) with
    | .Explored _ => explore_cells cfg cells rest
    | .NoMine _ n =>
      explore_cells cfg
        (updateCells cells (compute_linear_index cfg cell_coordinate) (.Explored n))
        (add_neighbours cfg rest cell_coordinate)
    | .Mine _ => explore_cells cfg cells rest
termination_by (noMineCount cells, queue.length)
decreasing_by
  · apply Prod.Lex.right
    simp
  · apply Prod.Lex.left
    exact noMineCount_update_lt cells _ (compute_linear_index_lt cfg cell_coordinate) _ n h
  · apply Prod.Lex.right
    simp

/-- Step-indexed version of the `explore_cells` work-list loop, one unit of
fuel per loop iteration; `none` means the fuel ran out before the work-list
emptied. -/
def explore_cells_fuel (cfg : GameConfiguration) :
    Nat → (Nat → BoardCell) → List Coordinate → Option (Nat → BoardCell)
  | 0, _, _ => none
  | _ + 1, cells, [] => some cells
  | fuel + 1, cells, cell_coordinate :: rest =>
    match cells (compute_linear_index cfg cell_coordinate) with
    | .Explored _ => explore_cells_fuel cfg fuel cells rest
    | .NoMine _ n =>
      explore_cells_fuel cfg fuel
        (updateCells cells (compute_linear_index cfg cell_coordinate) (.Explored n))
        (add_neighbours cfg rest cell_coordinate)
    | .Mine _ => explore_cells_fuel cfg fuel cells rest

/-- `GameBoard::explore` (lines 378-389). -/
def GameBoard.explore (b : GameBoard) (coordinate : Coordinate) :
    GameBoard × GameResolve :=
  match b.cells (compute_linear_index b.game_configuration coordinate) with
  | .NoMine _ _ =>
    ({ b with cells := explore_cells b.game_configuration b.cells [coordinate] },
      .Continue)
  | .Mine _ => (b, .MineHit)
  | .Explored _ => (b, .Continue)

/-- `GameBoard::clear_mark` (lines 320-337).  The flagged-mine counter is a
`u32`; under the flag-counter invariant proved below the decrement never
underflows, so truncated `Nat` subtraction coincides with it. -/
def GameBoard.clear_mark (b : GameBoard) (coordinate : Coordinate) :
    GameBoard × GameResolve :=
  let linear_index := compute_linear_index b.game_configuration coordinate
  match b.cells linear_index with
  | .NoMine _ n =>
    ({ b with cells := updateCells b.cells linear_index (.NoMine .NoMark n) }, .Continue)
  | .Mine mark =>
    ({ b with
        mines_discovered :=
          if mark = .MarkFlag then b.mines_discovered - 1 else b.mines_discovered,
        cells := updateCells b.cells linear_index (.Mine .NoMark) }, .Continue)
  | .Explored _ => (b, .Continue)

/-- `GameBoard::set_mark_flag` (lines 339-357). -/
def GameBoard.set_mark_flag (b : GameBoard) (coordinate : Coordinate) :
    GameBoard × GameResolve :=
  let linear_index := compute_linear_index b.game_configuration coordinate
  match b.cells linear_index with
  | .NoMine _ n =>
    ({ b with cells := updateCells b.cells linear_index (.NoMine .MarkFlag n) }, .Continue)
  | .Mine mark =>
    ({ b with
        mines_discovered :=
          match mark with
          | .NoMark | .MarkNote => b.mines_discovered + 1
          | _ => b.mines_discovered,
        cells := updateCells b.cells linear_index (.Mine .MarkFlag) }, .Continue)
  | .Explored _ => (b, .Continue)

/-- `GameBoard::set_mark_note` (lines 359-376). -/
def GameBoard.set_mark_note (b : GameBoard) (coordinate : Coordinate) :
    GameBoard × GameResolve :=
  let linear_index := compute_linear_index b.game_configuration coordinate
  match b.cells linear_index with
  | .NoMine _ n =>
    ({ b with cells := updateCells b.cells linear_index (.NoMine .MarkNote n) }, .Continue)
  | .Mine mark =>
    ({ b with
        mines_discovered :=
          if mark = .MarkFlag then b.mines_discovered - 1 else b.mines_discovered,
        cells := updateCells b.cells linear_index (.Mine .MarkNote) }, .Continue)
  | .Explored _ => (b, .Continue)

/-- The command dispatch of `GameBoard::manipulate_cell` (lines 299-306):
the `match` that produces `command_result` together with the mutated board. -/
def dispatch_command (b : GameBoard) (command : BoardCommand) :
    GameBoard × GameResolve :=
  match command with
  | .Quit => (b, .Quit)
  | .Pass => (b, .Continue)
  | .ClearMark coordinate => b.clear_mark coordinate
  | .SetMarkFlag coordinate => b.set_mark_flag coordinate
  | .SetMarkNote coordinate => b.set_mark_note coordinate
  | .Explore coordinate => b.explore coordinate

/-- `GameBoard::manipulate_cell` (lines 298-318): dispatch the command,
then upgrade a `Continue`/`AllMinesDiscovered` result to
`AllMinesDiscovered` exactly when the flagged-mine counter equals the
configured total mine count. -/
def GameBoard.manipulate_cell (b : GameBoard) (command : BoardCommand) :
    GameBoard × GameResolve :=
  let dispatched := dispatch_command b command
  match dispatched.2 with
  | .Continue | .AllMinesDiscovered =>
    if dispatched.1.mines_discovered = dispatched.1.game_configuration.total_mines
    then (dispatched.1, .AllMinesDiscovered)
    else (dispatched.1, .Continue)
  | other => (dispatched.1, other)

/-- One iteration of the first `generate_world` loop (line 266): place a
mine at a linear position chosen by the shuffle. -/
def place_mine (bb : GameBoard) (p : Nat) : GameBoard :=
  { bb with cells := updateCells bb.cells p (.Mine .NoMark) }

/-- Loop body of the neighbour-count pass (lines 285-294): if the
neighbouring cell is concealed-safe, rewrite it with mark `NoMark` and its
count incremented (`u8` addition, wrapping at 256); every other cell is
left as it is. -/
def incr_neighbour (bbb : GameBoard) (neighbour : Coordinate) : GameBoard :=
  match bbb.cells (compute_linear_index bbb.game_configuration neighbour) with
  | .NoMine _ n =>
    { bbb with
        cells := updateCells bbb.cells
          (compute_linear_index bbb.game_configuration neighbour)
          (.NoMine .NoMark ((n + 1) % 256)) }
  | _ => bbb

/-- One iteration of the second `generate_world` loop (lines 275-295):
collect the bounds-checked neighbours of one mine position (whose
coordinate is `(idx / w) as u16, (idx % w) as u16`; the casts wrap modulo
65536) and increment each of their counts. -/
def incr_neighbours_of_mine (bb : GameBoard) (p : Nat) : GameBoard :=
  (add_neighbours bb.game_configuration []
      ⟨(p / bb.game_configuration.width) % 65536,
        (p % bb.game_configuration.width) % 65536⟩).foldl incr_neighbour bb

/-- `GameBoard::generate_world` (lines 259-296).  `mine_positions` models
the vector `(0..h*w).collect()` after the random shuffle; the slice
`[0..total_mines]` is `List.take`. -/
def generate_world (b : GameBoard) (mine_positions : List Nat) : GameBoard :=
  (mine_positions.take b.game_configuration.total_mines).foldl incr_neighbours_of_mine
    ((mine_positions.take b.game_configuration.total_mines).foldl place_mine b)

/-! ## Specification-side notions -/

/-- A coordinate is within the board. -/
def inBounds (cfg : GameConfiguration) (c : Coordinate) : Prop :=
  c.row < cfg.height ∧ c.col < cfg.width

instance (cfg : GameConfiguration) (c : Coordinate) : Decidable (inBounds cfg c) := by
  unfold inBounds; infer_instance

/-- The exact (non-wrapping) row-major linear index of a coordinate. -/
def tidx (cfg : GameConfiguration) (c : Coordinate) : Nat :=
  c.row * cfg.width + c.col

/-- 8-adjacency of two distinct grid coordinates. -/
def adjacent (a b : Coordinate) : Prop :=
  a ≠ b ∧ ((a.row : Int) - b.row).natAbs ≤ 1 ∧ ((a.col : Int) - b.col).natAbs ≤ 1

instance (a b : Coordinate) : Decidable (adjacent a b) := by
  unfold adjacent; infer_instance

/-- `connected cfg cells c d`: there is a path from `c` to `d` whose every
step moves to an 8-adjacent, in-bounds, concealed-safe cell. -/
def connected (cfg : GameConfiguration) (cells : Nat → BoardCell)
    (c d : Coordinate) : Prop :=
  Relation.ReflTransGen
    (fun a e => adjacent a e ∧ inBounds cfg e ∧ (cells (tidx cfg e)).isNoMine = true) c d

/-! ## Helper lemmas about the parser -/

theorem splitOnceChar_eq_none_iff (c : Char) (l : List Char) :
    splitOnceChar c l = none ↔ c ∉ l := by
  induction l with
  | nil => simp [splitOnceChar]
  | cons a as ih =>
    by_cases hac : a = c
    · subst hac
      simp [splitOnceChar]
    · have hne : ¬(c = a) := fun h => hac h.symm
      simp only [splitOnceChar, if_neg hac, List.mem_cons]
      rw [Option.map_eq_none', ih]
      simp [hne]

/-! ## Claim theorems: the parser -/

/-- Claim C10: every board operation addresses cells through
`compute_linear_index`, which is computed in 16-bit unsigned arithmetic.
For an in-bounds coordinate the accessed index equals the exact row-major
index `row * width + col` exactly when that value is below 65536; in
general the accessed index is the exact index reduced modulo 65536, and on
any board with `width * height > 65536` some in-bounds coordinate is
addressed at a wrong cell. -/
theorem compute_linear_index_is_u16_arithmetic :
    (∀ cfg c, tidx cfg c < 65536 → compute_linear_index cfg c = tidx cfg c)
    ∧ (∀ cfg c, compute_linear_index cfg c = tidx cfg c % 65536)
    ∧ (∀ cfg : GameConfiguration, cfg.width * cfg.height > 65536 →
        ∃ c, inBounds cfg c ∧ compute_linear_index cfg c ≠ tidx cfg c) := by
  have hmod : ∀ cfg c, compute_linear_index cfg c = tidx cfg c % 65536 := by
    intro cfg c
    unfold compute_linear_index tidx
    omega
  refine ⟨?_, hmod, ?_⟩
  · intro cfg c h
    rw [hmod, Nat.mod_eq_of_lt h]
  · intro cfg hbig
    have hw : 0 < cfg.width := by
      rcases Nat.eq_zero_or_pos cfg.width with h0 | h
      · rw [h0, Nat.zero_mul] at hbig; omega
      · exact h
    have hh : 0 < cfg.height := by
      rcases Nat.eq_zero_or_pos cfg.height with h0 | h
      · rw [h0, Nat.mul_zero] at hbig; omega
      · exact h
    refine ⟨⟨cfg.height - 1, cfg.width - 1⟩, ⟨?_, ?_⟩, ?_⟩
    · show cfg.height - 1 < cfg.height; omega
    · show cfg.width - 1 < cfg.width; omega
    · have htidx : tidx cfg ⟨cfg.height - 1, cfg.width - 1⟩ = cfg.width * cfg.height - 1 := by
        show (cfg.height - 1) * cfg.width + (cfg.width - 1) = cfg.width * cfg.height - 1
        obtain ⟨h1, hh1⟩ : ∃ k, cfg.height = k + 1 := ⟨cfg.height - 1, by omega⟩
        rw [hh1]
        have e1 : (h1 + 1 - 1) * cfg.width = h1 * cfg.width := by simp
        rw [e1]
        have e2 : cfg.width * (h1 + 1) = h1 * cfg.width + cfg.width := by ring
        rw [e2]
        omega
      rw [hmod, htidx]
      have h1 : cfg.width * cfg.height - 1 ≥ 65536 := by omega
      have h2 : (cfg.width * cfg.height - 1) % 65536 < 65536 := Nat.mod_lt _ (by omega)
      omega

/-- Witness for `compute_linear_index_is_u16_arithmetic` at concrete inputs:
a 10 x 10 board addresses (3, 4) exactly, and a 300 x 300 board has a
miscomputed in-bounds coordinate. -/
theorem compute_linear_index_is_u16_arithmetic_witness :
    compute_linear_index ⟨10, 10, 0⟩ ⟨3, 4⟩ = tidx ⟨10, 10, 0⟩ ⟨3, 4⟩
    ∧ ∃ c, inBounds ⟨300, 300, 0⟩ c ∧
        compute_linear_index ⟨300, 300, 0⟩ c ≠ tidx ⟨300, 300, 0⟩ c :=
  ⟨compute_linear_index_is_u16_arithmetic.1 ⟨10, 10, 0⟩ ⟨3, 4⟩ (by decide),
    compute_linear_index_is_u16_arithmetic.2.2 ⟨300, 300, 0⟩ (by norm_num)⟩

/-- Claim C9 (code bug): on an input with no space, configuration parsing
is supposed to return the recoverable error `MalformedString`, but the
source builds the error with `ok_or` and then immediately calls `.unwrap()`
on the result, so it panics instead (modelled by `none`); it never returns
`some (.error .MalformedString)`. -/
theorem game_configuration_try_from_no_space_panics :
    GameConfiguration.try_from ("1010".data) = none := rfl

/-- Claim C7: for every input that is not `pass`/`quit` after lowercasing
and trimming, the parser classifies failures in this order: no opening
parenthesis gives `MalformedString`; otherwise no comma after the first
opening parenthesis gives `MalformedCoordinate`; otherwise a numeric
parse failure of either field gives `CoordinateParsing` with the numeric
cause (regardless of the verb); only when both fields parse does an
unrecognized verb give `NotFound`. -/
theorem command_parse_error_classification (input : List Char)
    (hpass : trimChars (input.map toLowerChar) ≠ "pass".data)
    (hquit : trimChars (input.map toLowerChar) ≠ "quit".data) :
    ('(' ∉ trimChars (input.map toLowerChar) →
      BoardCommand.try_from input = .error .MalformedString)
    ∧ ∀ command_part rest,
        splitOnceChar '(' (trimChars (input.map toLowerChar)) = some (command_part, rest) →
        ((splitOnceChar ',' (trimChars rest) = none →
            BoardCommand.try_from input = .error .MalformedCoordinate)
         ∧ ∀ value_x value_y,
            splitOnceChar ',' (trimChars rest) = some (value_x, value_y) →
            ((∀ err, parse_u16 value_x = .error err →
                BoardCommand.try_from input = .error (.CoordinateParsing err))
             ∧ (∀ vx err, parse_u16 value_x = .ok vx →
                  parse_u16 (trimChars (value_y.filter (fun c => !(c = '\n' || c = ')')))) =
                    .error err →
                  BoardCommand.try_from input = .error (.CoordinateParsing err))
             ∧ (∀ vx vy, parse_u16 value_x = .ok vx →
                  parse_u16 (trimChars (value_y.filter (fun c => !(c = '\n' || c = ')')))) =
                    .ok vy →
                  trimChars command_part ≠ "clear".data →
                  trimChars command_part ≠ "flag".data →
                  trimChars command_part ≠ "note".data →
                  trimChars command_part ≠ "explore".data →
                  BoardCommand.try_from input = .error .NotFound))) := by
  constructor
  · intro hpar
    have hsplit : splitOnceChar '(' (trimChars (input.map toLowerChar)) = none :=
      (splitOnceChar_eq_none_iff _ _).mpr hpar
    simp only [BoardCommand.try_from, if_neg hpass, if_neg hquit, hsplit]
  · intro command_part rest hsplit
    constructor
    · intro hcomma
      simp only [BoardCommand.try_from, if_neg hpass, if_neg hquit, hsplit, hcomma]
    · intro value_x value_y hcomma
      refine ⟨?_, ?_, ?_⟩
      · intro err herr
        simp only [BoardCommand.try_from, if_neg hpass, if_neg hquit, hsplit, hcomma, herr]
      · intro vx err hok herr
        simp only [BoardCommand.try_from, if_neg hpass, if_neg hquit, hsplit, hcomma, hok,
          herr]
      · intro vx vy hok hok2 h1 h2 h3 h4
        simp only [BoardCommand.try_from, if_neg hpass, if_neg hquit, hsplit, hcomma, hok,
          hok2, if_neg h1, if_neg h2, if_neg h3, if_neg h4]

/-- Witness for `command_parse_error_classification` at the concrete input
`asd`, which contains no opening parenthesis. -/
theorem command_parse_error_classification_witness :
    trimChars (("asd".data).map toLowerChar) ≠ "pass".data
    ∧ BoardCommand.try_from ("asd".data) = .error .MalformedString :=
  ⟨by decide,
    (command_parse_error_classification ("asd".data) (by decide) (by decide)).1 (by decide)⟩

/-! ## Claim C4: the post-dispatch win check -/

/-- Claim C4: for every command, if the dispatched result is `Continue` or
`AllMinesDiscovered`, the final resolution of `manipulate_cell` is
`AllMinesDiscovered` exactly when the flagged-mine counter equals the
configured total mine count and `Continue` otherwise; a dispatched
`MineHit` or `Quit` is returned unchanged, with no win upgrade and with the
dispatched board state. -/
theorem manipulate_cell_win_check (b : GameBoard) (command : BoardCommand)
    (b1 : GameBoard) (r : GameResolve)
    (hdis : dispatch_command b command = (b1, r)) :
    ((r = .Continue ∨ r = .AllMinesDiscovered) →
      b.manipulate_cell command =
        (b1, if b1.mines_discovered = b1.game_configuration.total_mines
          then .AllMinesDiscovered else .Continue))
    ∧ (r = .MineHit → b.manipulate_cell command = (b1, .MineHit))
    ∧ (r = .Quit → b.manipulate_cell command = (b1, .Quit)) := by
  refine ⟨fun hr => ?_, fun hr => ?_, fun hr => ?_⟩
  · rcases hr with rfl | rfl <;>
      (simp only [GameBoard.manipulate_cell, hdis]; split_ifs <;> rfl)
  · subst hr; simp only [GameBoard.manipulate_cell, hdis]
  · subst hr; simp only [GameBoard.manipulate_cell, hdis]

/-- Witness for `manipulate_cell_win_check`: a `Quit` command on a concrete
board propagates unchanged. -/
theorem manipulate_cell_win_check_witness :
    dispatch_command (GameBoard.new ⟨1, 1, 0⟩) .Quit = (GameBoard.new ⟨1, 1, 0⟩, .Quit)
    ∧ (GameBoard.new ⟨1, 1, 0⟩).manipulate_cell .Quit = (GameBoard.new ⟨1, 1, 0⟩, .Quit) :=
  ⟨rfl, (manipulate_cell_win_check (GameBoard.new ⟨1, 1, 0⟩) .Quit
    (GameBoard.new ⟨1, 1, 0⟩) .Quit rfl).2.2 rfl⟩

/-! ## Index lemmas -/

theorem tidx_lt_size (cfg : GameConfiguration) (c : Coordinate) (h : inBounds cfg c) :
    tidx cfg c < cfg.width * cfg.height := by
  obtain ⟨hr, hc⟩ := h
  unfold tidx
  calc c.row * cfg.width + c.col < c.row * cfg.width + cfg.width := by omega
    _ = (c.row + 1) * cfg.width := by ring
    _ ≤ cfg.height * cfg.width := Nat.mul_le_mul_right _ (by omega)
    _ = cfg.width * cfg.height := Nat.mul_comm _ _

theorem compute_linear_index_eq_tidx (cfg : GameConfiguration) (c : Coordinate)
    (hW : cfg.width * cfg.height ≤ 65536) (h : inBounds cfg c) :
    compute_linear_index cfg c = tidx cfg c := by
  have := tidx_lt_size cfg c h
  unfold compute_linear_index tidx at *
  omega

theorem compute_linear_index_lt_size (cfg : GameConfiguration) (c : Coordinate)
    (h : inBounds cfg c) : compute_linear_index cfg c < cfg.width * cfg.height := by
  rcases le_or_lt (cfg.width * cfg.height) 65536 with hle | hgt
  · rw [compute_linear_index_eq_tidx cfg c hle h]
    exact tidx_lt_size cfg c h
  · exact lt_trans (compute_linear_index_lt cfg c) hgt

theorem tidx_injOn (cfg : GameConfiguration) (a b : Coordinate)
    (ha : inBounds cfg a) (hb : inBounds cfg b) (h : tidx cfg a = tidx cfg b) : a = b := by
  obtain ⟨har, hac⟩ := ha
  obtain ⟨hbr, hbc⟩ := hb
  unfold tidx at h
  have hrow : a.row = b.row := by
    rcases Nat.lt_trichotomy a.row b.row with hlt | heq | hgt
    · exfalso
      have : a.row * cfg.width + cfg.width ≤ b.row * cfg.width := by
        have : (a.row + 1) * cfg.width ≤ b.row * cfg.width :=
          Nat.mul_le_mul_right _ (by omega)
        calc a.row * cfg.width + cfg.width = (a.row + 1) * cfg.width := by ring
          _ ≤ b.row * cfg.width := this
      omega
    · exact heq
    · exfalso
      have : b.row * cfg.width + cfg.width ≤ a.row * cfg.width := by
        have : (b.row + 1) * cfg.width ≤ a.row * cfg.width :=
          Nat.mul_le_mul_right _ (by omega)
        calc b.row * cfg.width + cfg.width = (b.row + 1) * cfg.width := by ring
          _ ≤ a.row * cfg.width := this
      omega
  have hcol : a.col = b.col := by
    rw [hrow] at h
    omega
  cases a; cases b
  simp_all

/-! ## Flood-fill: unfolding and frame lemmas -/

theorem explore_cells_nil (cfg : GameConfiguration) (cells : Nat → BoardCell) :
    explore_cells cfg cells [] = cells := by
  rw [explore_cells.eq_def]

theorem explore_cells_cons_explored (cfg : GameConfiguration) (cells : Nat → BoardCell)
    (c : Coordinate) (rest : List Coordinate) (n : Nat)
    (h : cells (compute_linear_index cfg c) = .Explored n) :
    explore_cells cfg cells (c :: rest) = explore_cells cfg cells rest := by
  rw [explore_cells.eq_def]
  split
  · simp_all
  · rename_i cell2 rest2 heq2
    obtain ⟨rfl, rfl⟩ := heq2
    split <;> simp_all

theorem explore_cells_cons_nomine (cfg : GameConfiguration) (cells : Nat → BoardCell)
    (c : Coordinate) (rest : List Coordinate) (mk : Mark) (n : Nat)
    (h : cells (compute_linear_index cfg c) = .NoMine mk n) :
    explore_cells cfg cells (c :: rest) =
      explore_cells cfg (updateCells cells (compute_linear_index cfg c) (.Explored n))
        (add_neighbours cfg rest c) := by
  rw [explore_cells.eq_def]
  split
  · simp_all
  · rename_i cell2 rest2 heq2
    obtain ⟨rfl, rfl⟩ := heq2
    split <;> simp_all

theorem explore_cells_cons_mine (cfg : GameConfiguration) (cells : Nat → BoardCell)
    (c : Coordinate) (rest : List Coordinate) (mk : Mark)
    (h : cells (compute_linear_index cfg c) = .Mine mk) :
    explore_cells cfg cells (c :: rest) = explore_cells cfg cells rest := by
  rw [explore_cells.eq_def]
  split
  · simp_all
  · rename_i cell2 rest2 heq2
    obtain ⟨rfl, rfl⟩ := heq2
    split <;> simp_all

/-- Once a cell is explored it stays explored with the same count. -/
theorem explore_cells_preserves_explored (cfg : GameConfiguration) (i n : Nat) :
    ∀ (cells : Nat → BoardCell) (queue : List Coordinate),
      cells i = .Explored n → explore_cells cfg cells queue i = .Explored n := by
  intro cells queue
  induction cells, queue using explore_cells.induct cfg with
  | case1 cells =>
    intro h
    rw [explore_cells_nil]
    exact h
  | case2 cells c rest n' heq ih =>
    intro h
    rw [explore_cells_cons_explored cfg cells c rest n' heq]
    exact ih h
  | case3 cells c rest mk n' heq ih =>
    intro h
    rw [explore_cells_cons_nomine cfg cells c rest mk n' heq]
    apply ih
    unfold updateCells
    by_cases hi : i = compute_linear_index cfg c
    · subst hi
      rw [h] at heq
      cases heq
    · simpa [hi] using h
  | case4 cells c rest mk heq ih =>
    intro h
    rw [explore_cells_cons_mine cfg cells c rest mk heq]
    exact ih h

/-- The flood-fill loop only ever turns a concealed-safe cell into an
explored cell carrying that same neighbour count; every other cell keeps
its exact value. -/
theorem explore_cells_change (cfg : GameConfiguration) :
    ∀ (cells : Nat → BoardCell) (queue : List Coordinate) (i : Nat),
      explore_cells cfg cells queue i ≠ cells i →
      ∃ mk n, cells i = .NoMine mk n ∧ explore_cells cfg cells queue i = .Explored n := by
  intro cells queue
  induction cells, queue using explore_cells.induct cfg with
  | case1 cells =>
    intro i h
    rw [explore_cells_nil] at h
    exact absurd rfl h
  | case2 cells c rest n' heq ih =>
    intro i h
    rw [explore_cells_cons_explored cfg cells c rest n' heq] at h ⊢
    exact ih i h
  | case3 cells c rest mk n' heq ih =>
    intro i h
    rw [explore_cells_cons_nomine cfg cells c rest mk n' heq] at h ⊢
    by_cases hi : i = compute_linear_index cfg c
    · subst hi
      refine ⟨mk, n', heq, ?_⟩
      apply explore_cells_preserves_explored
      simp [updateCells]
    · have hcells : updateCells cells (compute_linear_index cfg c) (.Explored n') i
          = cells i := by simp [updateCells, hi]
      by_cases hch : explore_cells cfg
          (updateCells cells (compute_linear_index cfg c) (.Explored n'))
          (add_neighbours cfg rest c) i
          = updateCells cells (compute_linear_index cfg c) (.Explored n') i
      · rw [hch, hcells] at h
        exact absurd rfl h
      · obtain ⟨mk2, n2, hno, hexp⟩ := ih i hch
        rw [hcells] at hno
        exact ⟨mk2, n2, hno, hexp⟩
  | case4 cells c rest mk heq ih =>
    intro i h
    rw [explore_cells_cons_mine cfg cells c rest mk heq] at h ⊢
    exact ih i h

/-- The flood-fill loop neither creates nor removes nor re-marks mines. -/
theorem explore_cells_mine_iff (cfg : GameConfiguration) (cells : Nat → BoardCell)
    (queue : List Coordinate) (i : Nat) (mk : Mark) :
    explore_cells cfg cells queue i = .Mine mk ↔ cells i = .Mine mk := by
  constructor
  · intro h
    by_cases hch : explore_cells cfg cells queue i = cells i
    · rw [← hch]; exact h
    · obtain ⟨mk', n, _, hexp⟩ := explore_cells_change cfg cells queue i hch
      rw [h] at hexp
      cases hexp
  · intro h
    by_cases hch : explore_cells cfg cells queue i = cells i
    · rw [hch]; exact h
    · obtain ⟨mk', n, hno, _⟩ := explore_cells_change cfg cells queue i hch
      rw [h] at hno
      cases hno

/-! ## Flag counter -/

/-- Number of concealed-mine cells currently marked with a flag, among the
`width * height` cells of the board. -/
def flagCount (N : Nat) (cells : Nat → BoardCell) : Nat :=
  ((Finset.range N).filter (fun i => cells i = .Mine .MarkFlag)).card

/-- Number of concealed-mine cells of the board currently marked `Flag`. -/
def flaggedMines (b : GameBoard) : Nat :=
  flagCount (b.game_configuration.width * b.game_configuration.height) b.cells

theorem flagCount_update (cells : Nat → BoardCell) (N li : Nat) (hli : li < N)
    (v : BoardCell) :
    flagCount N (updateCells cells li v)
      = flagCount N cells - (if cells li = .Mine .MarkFlag then 1 else 0)
        + (if v = .Mine .MarkFlag then 1 else 0) := by
  classical
  unfold flagCount
  have hset : (Finset.range N).filter (fun i => updateCells cells li v i = .Mine .MarkFlag)
      = (if v = .Mine .MarkFlag
         then insert li
            (((Finset.range N).filter (fun i => cells i = .Mine .MarkFlag)).erase li)
         else ((Finset.range N).filter (fun i => cells i = .Mine .MarkFlag)).erase li) := by
    ext i
    by_cases hi : i = li
    · subst hi
      by_cases hv : v = .Mine .MarkFlag <;>
        simp [updateCells, hv, Finset.mem_filter, Finset.mem_range, hli, Finset.mem_erase]
    · by_cases hv : v = .Mine .MarkFlag <;>
        simp [updateCells, hi, hv, Finset.mem_filter, Finset.mem_range, Finset.mem_erase]
  rw [hset]
  by_cases hold : cells li = .Mine .MarkFlag <;> by_cases hv : v = .Mine .MarkFlag
  · have hmem : li ∈ (Finset.range N).filter (fun i => cells i = .Mine .MarkFlag) := by
      simp [Finset.mem_filter, Finset.mem_range, hli, hold]
    rw [if_pos hv, if_pos hold, if_pos hv,
      Finset.card_insert_of_not_mem (Finset.not_mem_erase _ _),
      Finset.card_erase_of_mem hmem]
  · have hmem : li ∈ (Finset.range N).filter (fun i => cells i = .Mine .MarkFlag) := by
      simp [Finset.mem_filter, Finset.mem_range, hli, hold]
    rw [if_neg hv, if_pos hold, if_neg hv, Finset.card_erase_of_mem hmem]
    omega
  · have hmem : li ∉ (Finset.range N).filter (fun i => cells i = .Mine .MarkFlag) := by
      simp [Finset.mem_filter, Finset.mem_range, hli, hold]
    rw [if_pos hv, if_neg hold, if_pos hv,
      Finset.card_insert_of_not_mem (Finset.not_mem_erase _ _),
      Finset.erase_eq_of_not_mem hmem]
    omega
  · have hmem : li ∉ (Finset.range N).filter (fun i => cells i = .Mine .MarkFlag) := by
      simp [Finset.mem_filter, Finset.mem_range, hli, hold]
    rw [if_neg hv, if_neg hold, if_neg hv, Finset.erase_eq_of_not_mem hmem]
    omega

theorem flagCount_explore_cells (N : Nat) (cfg : GameConfiguration)
    (cells : Nat → BoardCell) (queue : List Coordinate) :
    flagCount N (explore_cells cfg cells queue) = flagCount N cells := by
  unfold flagCount
  congr 1
  ext i
  simp only [Finset.mem_filter, Finset.mem_range]
  rw [explore_cells_mine_iff]

/-- Commands carrying an in-bounds coordinate (`Pass` and `Quit` carry
none). -/
def cmdInBounds (cfg : GameConfiguration) : BoardCommand → Bool
  | .Pass | .Quit => true
  | .ClearMark c | .SetMarkFlag c | .SetMarkNote c | .Explore c => decide (inBounds cfg c)

theorem foldl_preserve {α β : Type} (P : β → Prop) (f : β → α → β) (l : List α) (b : β)
    (hb : P b) (hf : ∀ b a, a ∈ l → P b → P (f b a)) : P (l.foldl f b) := by
  induction l generalizing b with
  | nil => exact hb
  | cons a l ih =>
    exact ih (f b a) (hf b a (by simp) hb) (fun b' a' ha' => hf b' a' (by simp [ha']))

theorem incr_neighbour_fields (bbb : GameBoard) (e : Coordinate) :
    (incr_neighbour bbb e).mines_discovered = bbb.mines_discovered
    ∧ (incr_neighbour bbb e).game_configuration = bbb.game_configuration := by
  unfold incr_neighbour
  split <;> exact ⟨rfl, rfl⟩

theorem incr_neighbours_of_mine_fields (bb : GameBoard) (p : Nat) :
    (incr_neighbours_of_mine bb p).mines_discovered = bb.mines_discovered
    ∧ (incr_neighbours_of_mine bb p).game_configuration = bb.game_configuration := by
  unfold incr_neighbours_of_mine
  apply foldl_preserve
    (fun bbb : GameBoard => bbb.mines_discovered = bb.mines_discovered
      ∧ bbb.game_configuration = bb.game_configuration)
  · exact ⟨rfl, rfl⟩
  · intro bbb e _ h
    obtain ⟨h1, h2⟩ := incr_neighbour_fields bbb e
    exact ⟨h1.trans h.1, h2.trans h.2⟩

theorem generate_world_fields (b : GameBoard) (mp : List Nat) :
    (generate_world b mp).mines_discovered = b.mines_discovered
    ∧ (generate_world b mp).game_configuration = b.game_configuration := by
  unfold generate_world
  apply foldl_preserve
    (fun bb : GameBoard => bb.mines_discovered = b.mines_discovered
      ∧ bb.game_configuration = b.game_configuration)
  · apply foldl_preserve
      (fun bb : GameBoard => bb.mines_discovered = b.mines_discovered
        ∧ bb.game_configuration = b.game_configuration)
    · exact ⟨rfl, rfl⟩
    · intro bb p _ h
      exact h
  · intro bb p _ h
    obtain ⟨h1, h2⟩ := incr_neighbours_of_mine_fields bb p
    exact ⟨h1.trans h.1, h2.trans h.2⟩

/-- Every cell of a freshly generated world is either an unmarked mine or
an unmarked concealed-safe cell; in particular no cell carries a flag. -/
theorem generate_world_cell_shape (cfg : GameConfiguration) (mp : List Nat) (i : Nat) :
    (generate_world (GameBoard.new cfg) mp).cells i = .Mine .NoMark
    ∨ ∃ n, (generate_world (GameBoard.new cfg) mp).cells i = .NoMine .NoMark n := by
  unfold generate_world
  apply foldl_preserve
    (fun bb : GameBoard => bb.cells i = .Mine .NoMark ∨ ∃ n, bb.cells i = .NoMine .NoMark n)
  · apply foldl_preserve
      (fun bb : GameBoard => bb.cells i = .Mine .NoMark ∨ ∃ n, bb.cells i = .NoMine .NoMark n)
    · right
      exact ⟨0, rfl⟩
    · intro bb p _ h
      unfold place_mine
      dsimp only [updateCells]
      by_cases hip : i = p <;> simp [hip, h]
  · intro bb p _ h
    apply foldl_preserve
      (fun bb : GameBoard => bb.cells i = .Mine .NoMark ∨ ∃ n, bb.cells i = .NoMine .NoMark n)
    · exact h
    · intro bbb nb _ hh
      unfold incr_neighbour
      split
      · dsimp only [updateCells]
        by_cases hil : i = compute_linear_index bbb.game_configuration nb <;> simp [hil, hh]
      · exact hh

/-- One `manipulate_cell` step preserves the flag-counter invariant and the
board configuration, provided the coordinate it carries is in bounds. -/
theorem manipulate_cell_flag_inv (b : GameBoard) (cmd : BoardCommand)
    (hcmd : cmdInBounds b.game_configuration cmd = true)
    (hinv : b.mines_discovered = flaggedMines b) :
    (b.manipulate_cell cmd).1.mines_discovered = flaggedMines (b.manipulate_cell cmd).1
    ∧ (b.manipulate_cell cmd).1.game_configuration = b.game_configuration := by
  have hfst : (b.manipulate_cell cmd).1 = (dispatch_command b cmd).1 := by
    simp only [GameBoard.manipulate_cell]
    split <;> (try split) <;> rfl
  rw [hfst]
  cases cmd with
  | Pass => exact ⟨hinv, rfl⟩
  | Quit => exact ⟨hinv, rfl⟩
  | ClearMark c =>
    have hc : inBounds b.game_configuration c := by
      simpa [cmdInBounds] using hcmd
    have hlt := compute_linear_index_lt_size _ _ hc
    show (b.clear_mark c).1.mines_discovered = flaggedMines (b.clear_mark c).1
      ∧ (b.clear_mark c).1.game_configuration = b.game_configuration
    rcases hcell : b.cells (compute_linear_index b.game_configuration c) with n | ⟨mk, n⟩ | mk <;>
      simp only [GameBoard.clear_mark, hcell]
    · exact ⟨hinv, trivial⟩
    · refine ⟨?_, trivial⟩
      show b.mines_discovered
        = flagCount (b.game_configuration.width * b.game_configuration.height)
            (updateCells b.cells (compute_linear_index b.game_configuration c)
              (.NoMine .NoMark n))
      rw [flagCount_update _ _ _ hlt, hcell]
      simpa [flaggedMines, flagCount] using hinv
    · refine ⟨?_, trivial⟩
      show (if mk = .MarkFlag then b.mines_discovered - 1 else b.mines_discovered)
        = flagCount (b.game_configuration.width * b.game_configuration.height)
            (updateCells b.cells (compute_linear_index b.game_configuration c)
              (.Mine .NoMark))
      rw [flagCount_update _ _ _ hlt, hcell]
      cases mk <;> simp [hinv, flaggedMines, flagCount]
  | SetMarkFlag c =>
    have hc : inBounds b.game_configuration c := by
      simpa [cmdInBounds] using hcmd
    have hlt := compute_linear_index_lt_size _ _ hc
    have h2 : b.mines_discovered
        = flagCount (b.game_configuration.width * b.game_configuration.height) b.cells :=
      hinv
    show (b.set_mark_flag c).1.mines_discovered = flaggedMines (b.set_mark_flag c).1
      ∧ (b.set_mark_flag c).1.game_configuration = b.game_configuration
    rcases hcell : b.cells (compute_linear_index b.game_configuration c) with n | ⟨mk, n⟩ | mk
    · simp only [GameBoard.set_mark_flag, hcell]
      exact ⟨hinv, trivial⟩
    · simp only [GameBoard.set_mark_flag, hcell]
      refine ⟨?_, trivial⟩
      show b.mines_discovered
        = flagCount (b.game_configuration.width * b.game_configuration.height)
            (updateCells b.cells (compute_linear_index b.game_configuration c)
              (.NoMine .MarkFlag n))
      rw [flagCount_update _ _ _ hlt, hcell]
      simpa [flaggedMines, flagCount] using hinv
    · have hmem : compute_linear_index b.game_configuration c ∈
          (Finset.range (b.game_configuration.width * b.game_configuration.height)).filter
            (fun i => b.cells i = .Mine .MarkFlag) ∨ ¬mk = .MarkFlag := by
        cases hmk : mk <;>
          simp [Finset.mem_filter, Finset.mem_range, hlt, hcell, hmk]
      cases mk <;>
        (simp only [GameBoard.set_mark_flag, hcell]
         refine ⟨?_, trivial⟩)
      · show b.mines_discovered + 1
          = flagCount (b.game_configuration.width * b.game_configuration.height)
              (updateCells b.cells (compute_linear_index b.game_configuration c)
                (.Mine .MarkFlag))
        rw [flagCount_update _ _ _ hlt, hcell]
        simp
        omega
      · show b.mines_discovered + 1
          = flagCount (b.game_configuration.width * b.game_configuration.height)
              (updateCells b.cells (compute_linear_index b.game_configuration c)
                (.Mine .MarkFlag))
        rw [flagCount_update _ _ _ hlt, hcell]
        simp
        omega
      · show b.mines_discovered
          = flagCount (b.game_configuration.width * b.game_configuration.height)
              (updateCells b.cells (compute_linear_index b.game_configuration c)
                (.Mine .MarkFlag))
        rw [flagCount_update _ _ _ hlt, hcell]
        have h1 : 1 ≤ flagCount
            (b.game_configuration.width * b.game_configuration.height) b.cells := by
          rcases hmem with hm | hm
          · exact Finset.card_pos.mpr ⟨_, hm⟩
          · exact absurd rfl hm
        simp
        omega
  | SetMarkNote c =>
    have hc : inBounds b.game_configuration c := by
      simpa [cmdInBounds] using hcmd
    have hlt := compute_linear_index_lt_size _ _ hc
    show (b.set_mark_note c).1.mines_discovered = flaggedMines (b.set_mark_note c).1
      ∧ (b.set_mark_note c).1.game_configuration = b.game_configuration
    rcases hcell : b.cells (compute_linear_index b.game_configuration c) with n | ⟨mk, n⟩ | mk <;>
      simp only [GameBoard.set_mark_note, hcell]
    · exact ⟨hinv, trivial⟩
    · refine ⟨?_, trivial⟩
      show b.mines_discovered
        = flagCount (b.game_configuration.width * b.game_configuration.height)
            (updateCells b.cells (compute_linear_index b.game_configuration c)
              (.NoMine .MarkNote n))
      rw [flagCount_update _ _ _ hlt, hcell]
      simpa [flaggedMines, flagCount] using hinv
    · refine ⟨?_, trivial⟩
      show (if mk = .MarkFlag then b.mines_discovered - 1 else b.mines_discovered)
        = flagCount (b.game_configuration.width * b.game_configuration.height)
            (updateCells b.cells (compute_linear_index b.game_configuration c)
              (.Mine .MarkNote))
      rw [flagCount_update _ _ _ hlt, hcell]
      cases mk <;> simp [hinv, flaggedMines, flagCount]
  | Explore c =>
    show (b.explore c).1.mines_discovered = flaggedMines (b.explore c).1
      ∧ (b.explore c).1.game_configuration = b.game_configuration
    rcases hcell : b.cells (compute_linear_index b.game_configuration c) with n | ⟨mk, n⟩ | mk <;>
      simp only [GameBoard.explore, hcell]
    · exact ⟨hinv, trivial⟩
    · refine ⟨?_, trivial⟩
      show b.mines_discovered
        = flagCount (b.game_configuration.width * b.game_configuration.height)
            (explore_cells b.game_configuration b.cells [c])
      rw [flagCount_explore_cells]
      simpa [flaggedMines, flagCount] using hinv
    · exact ⟨hinv, trivial⟩

/-- Claim C3: on a generated board, after any sequence of commands applied
through `manipulate_cell` with in-bounds coordinates, the flagged-mine
counter equals the number of concealed-mine cells currently marked `Flag`.
Moreover (per operation, at the addressed cell): `SetMarkFlag` on a
concealed-safe cell never changes the counter; on a concealed-mine cell it
increments the counter exactly when the prior mark was `NoMark` or
`MarkNote`; `ClearMark` and `SetMarkNote` on a concealed-mine cell
decrement it exactly when the prior mark was `MarkFlag` (the counter being
at least one in that situation whenever the invariant holds); and no other
operation (`Explore`, mark operations on safe or already-explored cells)
changes the counter. -/
theorem flag_counter_invariant (cfg : GameConfiguration) (mine_positions : List Nat)
    (cmds : List BoardCommand)
    (hperm : mine_positions.Perm (List.range (cfg.width * cfg.height)))
    (hm : cfg.total_mines ≤ cfg.width * cfg.height)
    (hcmds : ∀ cmd ∈ cmds, cmdInBounds cfg cmd = true) :
    ((cmds.foldl (fun bb cmd => (bb.manipulate_cell cmd).1)
        (generate_world (GameBoard.new cfg) mine_positions)).mines_discovered
      = flaggedMines (cmds.foldl (fun bb cmd => (bb.manipulate_cell cmd).1)
          (generate_world (GameBoard.new cfg) mine_positions)))
    ∧ (∀ (bb : GameBoard) (c : Coordinate) (mk : Mark) (n : Nat),
        bb.cells (compute_linear_index bb.game_configuration c) = .NoMine mk n →
        (bb.set_mark_flag c).1.mines_discovered = bb.mines_discovered
        ∧ (bb.clear_mark c).1.mines_discovered = bb.mines_discovered
        ∧ (bb.set_mark_note c).1.mines_discovered = bb.mines_discovered)
    ∧ (∀ (bb : GameBoard) (c : Coordinate) (mk : Mark),
        bb.cells (compute_linear_index bb.game_configuration c) = .Mine mk →
        (bb.set_mark_flag c).1.mines_discovered
          = (if mk = .MarkFlag then bb.mines_discovered else bb.mines_discovered + 1)
        ∧ (bb.clear_mark c).1.mines_discovered
          = (if mk = .MarkFlag then bb.mines_discovered - 1 else bb.mines_discovered)
        ∧ (bb.set_mark_note c).1.mines_discovered
          = (if mk = .MarkFlag then bb.mines_discovered - 1 else bb.mines_discovered)
        ∧ (mk = .MarkFlag → bb.mines_discovered = flaggedMines bb →
            inBounds bb.game_configuration c → 1 ≤ bb.mines_discovered))
    ∧ (∀ (bb : GameBoard) (c : Coordinate) (n : Nat),
        bb.cells (compute_linear_index bb.game_configuration c) = .Explored n →
        (bb.set_mark_flag c).1.mines_discovered = bb.mines_discovered
        ∧ (bb.clear_mark c).1.mines_discovered = bb.mines_discovered
        ∧ (bb.set_mark_note c).1.mines_discovered = bb.mines_discovered)
    ∧ (∀ (bb : GameBoard) (c : Coordinate),
        (bb.explore c).1.mines_discovered = bb.mines_discovered) := by
  refine ⟨?_, ?_, ?_, ?_, ?_⟩
  · have hgen := generate_world_fields (GameBoard.new cfg) mine_positions
    have hflag0 : ∀ i,
        (generate_world (GameBoard.new cfg) mine_positions).cells i ≠ .Mine .MarkFlag := by
      intro i h
      rcases generate_world_cell_shape cfg mine_positions i with hs | ⟨n, hs⟩ <;>
        rw [h] at hs <;> simp at hs
    have hinv0 : (generate_world (GameBoard.new cfg) mine_positions).mines_discovered
        = flaggedMines (generate_world (GameBoard.new cfg) mine_positions) := by
      rw [hgen.1]
      show 0 = _
      symm
      unfold flaggedMines flagCount
      rw [Finset.card_eq_zero, Finset.filter_eq_empty_iff]
      intro i _
      exact hflag0 i
    have hP := foldl_preserve
      (fun bb : GameBoard => bb.mines_discovered = flaggedMines bb
        ∧ bb.game_configuration = cfg)
      (fun bb cmd => (bb.manipulate_cell cmd).1) cmds
      (generate_world (GameBoard.new cfg) mine_positions)
      ⟨hinv0, hgen.2⟩
      (by
        intro bb cmd hc hPb
        obtain ⟨h1, h2⟩ := hPb
        have hcb : cmdInBounds bb.game_configuration cmd = true := by
          rw [h2]; exact hcmds cmd hc
        obtain ⟨ha, hb⟩ := manipulate_cell_flag_inv bb cmd hcb h1
        exact ⟨ha, by rw [hb, h2]⟩)
    exact hP.1
  · intro bb c mk n hcell
    refine ⟨?_, ?_, ?_⟩ <;>
      simp [GameBoard.set_mark_flag, GameBoard.clear_mark, GameBoard.set_mark_note, hcell]
  · intro bb c mk hcell
    refine ⟨?_, ?_, ?_, ?_⟩
    · cases mk <;>
        simp [GameBoard.set_mark_flag, hcell]
    · cases mk <;>
        simp [GameBoard.clear_mark, hcell]
    · cases mk <;>
        simp [GameBoard.set_mark_note, hcell]
    · rintro rfl hinv hc
      have hlt := compute_linear_index_lt_size _ _ hc
      have hmem : compute_linear_index bb.game_configuration c ∈
          (Finset.range (bb.game_configuration.width * bb.game_configuration.height)).filter
            (fun i => bb.cells i = .Mine .MarkFlag) := by
        simp [Finset.mem_filter, Finset.mem_range, hlt, hcell]
      have h1 : 0 < flaggedMines bb := Finset.card_pos.mpr ⟨_, hmem⟩
      omega
  · intro bb c n hcell
    refine ⟨?_, ?_, ?_⟩ <;>
      simp [GameBoard.set_mark_flag, GameBoard.clear_mark, GameBoard.set_mark_note, hcell]
  · intro bb c
    rcases hcell : bb.cells (compute_linear_index bb.game_configuration c)
        with n | ⟨mk, n⟩ | mk <;>
      simp [GameBoard.explore, hcell]

/-- Witness for `flag_counter_invariant` on a concrete 2 x 2 board with one
mine and one `SetMarkFlag` command. -/
theorem flag_counter_invariant_witness :
    (List.range (2 * 2)).Perm
      (List.range ((⟨2, 2, 1⟩ : GameConfiguration).width
        * (⟨2, 2, 1⟩ : GameConfiguration).height))
    ∧ (([BoardCommand.SetMarkFlag ⟨0, 0⟩].foldl (fun bb cmd => (bb.manipulate_cell cmd).1)
        (generate_world (GameBoard.new ⟨2, 2, 1⟩) (List.range (2 * 2)))).mines_discovered
      = flaggedMines ([BoardCommand.SetMarkFlag ⟨0, 0⟩].foldl
          (fun bb cmd => (bb.manipulate_cell cmd).1)
          (generate_world (GameBoard.new ⟨2, 2, 1⟩) (List.range (2 * 2))))) :=
  ⟨List.Perm.refl _,
    (flag_counter_invariant ⟨2, 2, 1⟩ (List.range (2 * 2)) [.SetMarkFlag ⟨0, 0⟩]
      (List.Perm.refl _) (by norm_num) (by decide)).1⟩

/-! ## Claim C5: termination of the flood-fill work-list loop -/

/-- Claim C5: the flood-fill work-list loop terminates for every board
state and every work-list (in particular every in-bounds starting
coordinate): some finite amount of fuel makes the step-indexed loop
`explore_cells_fuel` empty its work-list, and the value it computes is the
one the loop computes. -/
theorem explore_cells_terminates (cfg : GameConfiguration) (cells : Nat → BoardCell)
    (queue : List Coordinate) :
    ∃ fuel, explore_cells_fuel cfg fuel cells queue
      = some (explore_cells cfg cells queue) := by
  induction cells, queue using explore_cells.induct cfg with
  | case1 cells =>
    exact ⟨1, by rw [explore_cells_nil]; rfl⟩
  | case2 cells c rest n heq ih =>
    obtain ⟨fuel, hf⟩ := ih
    refine ⟨fuel + 1, ?_⟩
    rw [explore_cells_cons_explored cfg cells c rest n heq]
    simp only [explore_cells_fuel, heq]
    exact hf
  | case3 cells c rest mk n heq ih =>
    obtain ⟨fuel, hf⟩ := ih
    refine ⟨fuel + 1, ?_⟩
    rw [explore_cells_cons_nomine cfg cells c rest mk n heq]
    simp only [explore_cells_fuel, heq]
    exact hf
  | case4 cells c rest mk heq ih =>
    obtain ⟨fuel, hf⟩ := ih
    refine ⟨fuel + 1, ?_⟩
    rw [explore_cells_cons_mine cfg cells c rest mk heq]
    simp only [explore_cells_fuel, heq]
    exact hf

/-! ## Claim C6: exploring a concealed mine -/

/-- The 257 x 257 configuration on which the 16-bit linear index
overflows (257 * 257 = 66049 > 65536). -/
def overflowConfig : GameConfiguration := ⟨257, 257, 0⟩

/-- A 257 x 257 board whose only concealed-safe cell is at linear index
256 (coordinate (0, 256)); every other cell, in particular the one at
coordinate (256, 0) (linear index 65792), is a concealed mine. -/
def overflowMineCells : Nat → BoardCell :=
  fun i => if i = 256 then .NoMine .NoMark 0 else .Mine .NoMark

/-- The board built from `overflowMineCells`. -/
def overflowMineBoard : GameBoard :=
  ⟨overflowConfig, 0, overflowMineCells⟩

/-- Claim C6 counterexample: on the 257 x 257 board `overflowMineBoard`,
the in-bounds coordinate (256, 0) holds a concealed mine (its exact linear
index is 65792), yet `Explore` returns `Continue` — not `MineHit` — and
mutates the board, because the `u16` index arithmetic wraps 65792 to 256
and the engine reads the concealed-safe cell there. -/
theorem explore_mine_hit_cex :
    inBounds overflowConfig ⟨256, 0⟩
    ∧ overflowMineBoard.cells (tidx overflowConfig ⟨256, 0⟩) = .Mine .NoMark
    ∧ (overflowMineBoard.explore ⟨256, 0⟩).2 = .Continue
    ∧ (overflowMineBoard.explore ⟨256, 0⟩).2 ≠ .MineHit
    ∧ (overflowMineBoard.explore ⟨256, 0⟩).1.cells 256 = .Explored 0
    ∧ overflowMineBoard.cells 256 ≠ .Explored 0 := by
  have h1 : overflowMineCells (compute_linear_index overflowConfig ⟨256, 0⟩)
      = .NoMine .NoMark 0 := by decide
  have hcells : (overflowMineBoard.explore ⟨256, 0⟩).1.cells
      = explore_cells overflowConfig overflowMineCells [⟨256, 0⟩] := by
    unfold GameBoard.explore
    simp only [overflowMineBoard]
    rw [h1]
  refine ⟨by decide, by decide, rfl, by decide, ?_, by decide⟩
  rw [hcells, explore_cells_cons_nomine overflowConfig overflowMineCells ⟨256, 0⟩ [] .NoMark 0 h1]
  apply explore_cells_preserves_explored
  decide

/-- Claim C6, amended with the precondition that the board is small enough
for the 16-bit index arithmetic not to wrap (`width * height ≤ 65536`, which
claim C10 shows is necessary): exploring an in-bounds concealed-mine cell
returns `MineHit`, both from `explore` and through `manipulate_cell`, and
leaves the entire board state (every cell and the flagged-mine counter)
unchanged. -/
theorem explore_mine_hit (b : GameBoard) (c : Coordinate) (mk : Mark)
    (hW : b.game_configuration.width * b.game_configuration.height ≤ 65536)
    (hc : inBounds b.game_configuration c)
    (hcell : b.cells (tidx b.game_configuration c) = .Mine mk) :
    b.explore c = (b, .MineHit)
    ∧ b.manipulate_cell (.Explore c) = (b, .MineHit) := by
  have he : b.explore c = (b, .MineHit) := by
    unfold GameBoard.explore
    rw [compute_linear_index_eq_tidx _ _ hW hc, hcell]
  have hd : dispatch_command b (.Explore c) = (b, .MineHit) := he
  refine ⟨he, ?_⟩
  simp only [GameBoard.manipulate_cell, hd]

/-- Witness for `explore_mine_hit` on a concrete 1 x 1 board holding a
single mine. -/
theorem explore_mine_hit_witness :
    (⟨⟨1, 1, 1⟩, 0, fun _ => .Mine .NoMark⟩ : GameBoard).explore ⟨0, 0⟩
      = (⟨⟨1, 1, 1⟩, 0, fun _ => .Mine .NoMark⟩, .MineHit)
    ∧ (⟨⟨1, 1, 1⟩, 0, fun _ => .Mine .NoMark⟩ : GameBoard).manipulate_cell (.Explore ⟨0, 0⟩)
      = (⟨⟨1, 1, 1⟩, 0, fun _ => .Mine .NoMark⟩, .MineHit) :=
  explore_mine_hit ⟨⟨1, 1, 1⟩, 0, fun _ => .Mine .NoMark⟩ ⟨0, 0⟩ .NoMark
    (by norm_num) ⟨by norm_num, by norm_num⟩ rfl

/-! ## Claim C1: the region revealed by the flood fill -/

theorem mem_push_neighbour (cfg : GameConfiguration) (center : Coordinate)
    (q : List Coordinate) (ij : Int × Int) (n : Coordinate) :
    n ∈ push_neighbour cfg center q ij ↔
      n ∈ q ∨
        (¬(((center.row : Int) + ij.1 = (center.row : Int)
              ∧ (center.col : Int) + ij.2 = (center.col : Int))
            ∨ (center.row : Int) + ij.1 < 0
            ∨ (center.col : Int) + ij.2 < 0
            ∨ (center.row : Int) + ij.1 ≥ (cfg.height : Int)
            ∨ (center.col : Int) + ij.2 ≥ (cfg.width : Int))
          ∧ n = ⟨((center.row : Int) + ij.1).toNat, ((center.col : Int) + ij.2).toNat⟩) := by
  unfold push_neighbour
  by_cases hcond : ((center.row : Int) + ij.1 = (center.row : Int)
        ∧ (center.col : Int) + ij.2 = (center.col : Int))
      ∨ (center.row : Int) + ij.1 < 0
      ∨ (center.col : Int) + ij.2 < 0
      ∨ (center.row : Int) + ij.1 ≥ (cfg.height : Int)
      ∨ (center.col : Int) + ij.2 ≥ (cfg.width : Int)
  · rw [if_pos hcond]
    constructor
    · exact Or.inl
    · rintro (hq | ⟨hnc, _⟩)
      · exact hq
      · exact absurd hcond hnc
  · rw [if_neg hcond, List.mem_cons]
    constructor
    · rintro (rfl | hq)
      · exact Or.inr ⟨hcond, rfl⟩
      · exact Or.inl hq
    · rintro (hq | ⟨_, rfl⟩)
      · exact Or.inr hq
      · exact Or.inl rfl

theorem mem_add_neighbours_aux (cfg : GameConfiguration) (center : Coordinate) :
    ∀ (offs : List (Int × Int)) (q : List Coordinate) (n : Coordinate),
      n ∈ offs.foldl (push_neighbour cfg center) q ↔
        n ∈ q ∨ ∃ ij ∈ offs,
          (¬(((center.row : Int) + ij.1 = (center.row : Int)
                ∧ (center.col : Int) + ij.2 = (center.col : Int))
              ∨ (center.row : Int) + ij.1 < 0
              ∨ (center.col : Int) + ij.2 < 0
              ∨ (center.row : Int) + ij.1 ≥ (cfg.height : Int)
              ∨ (center.col : Int) + ij.2 ≥ (cfg.width : Int))
            ∧ n = ⟨((center.row : Int) + ij.1).toNat, ((center.col : Int) + ij.2).toNat⟩) := by
  intro offs
  induction offs with
  | nil => simp
  | cons ij offs ih =>
    intro q n
    rw [List.foldl_cons, ih, mem_push_neighbour]
    simp only [List.mem_cons]
    constructor
    · rintro (( hq | hij) | ⟨ij2, hij2, hx⟩)
      · exact Or.inl hq
      · exact Or.inr ⟨ij, Or.inl rfl, hij⟩
      · exact Or.inr ⟨ij2, Or.inr hij2, hx⟩
    · rintro (hq | ⟨ij2, (rfl | hij2), hx⟩)
      · exact Or.inl (Or.inl hq)
      · exact Or.inl (Or.inr hx)
      · exact Or.inr ⟨ij2, hij2, hx⟩

/-- Characterization of `add_neighbours`: it pushes exactly the in-bounds
coordinates 8-adjacent to the center, on top of the existing work-list. -/
theorem mem_add_neighbours (cfg : GameConfiguration) (queue : List Coordinate)
    (center n : Coordinate) :
    n ∈ add_neighbours cfg queue center ↔
      n ∈ queue ∨ (adjacent center n ∧ inBounds cfg n) := by
  rw [add_neighbours, mem_add_neighbours_aux]
  apply or_congr Iff.rfl
  constructor
  · rintro ⟨⟨i, j⟩, hij, hcond, rfl⟩
    push_neg at hcond
    obtain ⟨hcen, h0x, h0y, hhx, hwy⟩ := hcond
    have hijb : (-1 ≤ i ∧ i ≤ 1) ∧ (-1 ≤ j ∧ j ≤ 1) := by
      fin_cases hij <;> norm_num
    constructor
    · refine ⟨?_, ?_, ?_⟩
      · intro hne
        have h1 : center.row = ((center.row : Int) + i).toNat :=
          congrArg Coordinate.row hne
        have h2 : center.col = ((center.col : Int) + j).toNat :=
          congrArg Coordinate.col hne
        by_cases hx : (center.row : Int) + i = (center.row : Int)
        · exact (hcen hx) (by omega)
        · exact hx (by omega)
      · show (((center.row : Int)) - (((center.row : Int) + i).toNat : Int)).natAbs ≤ 1
        omega
      · show (((center.col : Int)) - (((center.col : Int) + j).toNat : Int)).natAbs ≤ 1
        omega
    · constructor
      · show ((center.row : Int) + i).toNat < cfg.height
        omega
      · show ((center.col : Int) + j).toNat < cfg.width
        omega
  · rintro ⟨⟨hne, hrow, hcol⟩, hinr, hinc⟩
    refine ⟨⟨(n.row : Int) - (center.row : Int), (n.col : Int) - (center.col : Int)⟩,
      ?_, ?_, ?_⟩
    · have hr : (n.row : Int) - (center.row : Int) = -1
          ∨ (n.row : Int) - (center.row : Int) = 0
          ∨ (n.row : Int) - (center.row : Int) = 1 := by omega
      have hc : (n.col : Int) - (center.col : Int) = -1
          ∨ (n.col : Int) - (center.col : Int) = 0
          ∨ (n.col : Int) - (center.col : Int) = 1 := by omega
      rcases hr with hr | hr | hr <;> rcases hc with hc | hc | hc <;>
        simp [neighbour_offsets, hr, hc]
    · push_neg
      refine ⟨?_, by omega, by omega, by omega, by omega⟩
      intro hx hy
      apply hne
      have : n.row = center.row := by omega
      have : n.col = center.col := by omega
      cases n; cases center; simp_all
    · cases n
      simp only
      congr 1 <;> omega

/-- Every work-list entry currently sitting on a concealed-safe cell ends
up explored when the loop finishes. -/
theorem explore_cells_queue_covered (cfg : GameConfiguration) :
    ∀ (cells : Nat → BoardCell) (queue : List Coordinate) (q : Coordinate),
      q ∈ queue → (cells (compute_linear_index cfg q)).isNoMine = true →
      (explore_cells cfg cells queue (compute_linear_index cfg q)).isExplored = true := by
  intro cells queue
  induction cells, queue using explore_cells.induct cfg with
  | case1 cells =>
    intro q hq
    simp at hq
  | case2 cells c rest n heq ih =>
    intro q hq hno
    rw [explore_cells_cons_explored cfg cells c rest n heq]
    rcases List.mem_cons.mp hq with rfl | hq2
    · rw [heq] at hno
      simp [BoardCell.isNoMine] at hno
    · exact ih q hq2 hno
  | case3 cells c rest mk n heq ih =>
    intro q hq hno
    rw [explore_cells_cons_nomine cfg cells c rest mk n heq]
    by_cases hqc : compute_linear_index cfg q = compute_linear_index cfg c
    · rw [hqc]
      rw [explore_cells_preserves_explored cfg _ n _ _ (by simp [updateCells])]
      rfl
    · rcases List.mem_cons.mp hq with rfl | hq2
      · exact absurd rfl hqc
      · apply ih q
        · rw [mem_add_neighbours]
          exact Or.inl hq2
        · simpa [updateCells, hqc] using hno
  | case4 cells c rest mk heq ih =>
    intro q hq hno
    rw [explore_cells_cons_mine cfg cells c rest mk heq]
    rcases List.mem_cons.mp hq with rfl | hq2
    · rw [heq] at hno
      simp [BoardCell.isNoMine] at hno
    · exact ih q hq2 hno

/-- Closure of the explored region: if the loop newly explores a cell, it
also explores every concealed-safe in-bounds cell adjacent to it. -/
theorem explore_cells_closure (cfg : GameConfiguration)
    (hW : cfg.width * cfg.height ≤ 65536) :
    ∀ (cells : Nat → BoardCell) (queue : List Coordinate),
      (∀ q ∈ queue, inBounds cfg q) →
      ∀ a e, inBounds cfg a → inBounds cfg e → adjacent a e →
        (explore_cells cfg cells queue (compute_linear_index cfg a)).isExplored = true →
        (cells (compute_linear_index cfg a)).isExplored = false →
        (cells (compute_linear_index cfg e)).isNoMine = true →
        (explore_cells cfg cells queue (compute_linear_index cfg e)).isExplored = true := by
  intro cells queue
  induction cells, queue using explore_cells.induct cfg with
  | case1 cells =>
    intro _ a e _ _ _ hfin hbefore _
    rw [explore_cells_nil] at hfin
    rw [hfin] at hbefore
    cases hbefore
  | case2 cells c rest n heq ih =>
    intro hq a e ha he hadj hfin hbefore hnoe
    rw [explore_cells_cons_explored cfg cells c rest n heq] at hfin ⊢
    exact ih (fun q hq2 => hq q (List.mem_cons_of_mem _ hq2)) a e ha he hadj hfin hbefore hnoe
  | case3 cells c rest mk n heq ih =>
    intro hq a e ha he hadj hfin hbefore hnoe
    rw [explore_cells_cons_nomine cfg cells c rest mk n heq] at hfin ⊢
    have hq2 : ∀ q ∈ add_neighbours cfg rest c, inBounds cfg q := by
      intro q hmem
      rcases (mem_add_neighbours cfg rest c q).mp hmem with hmem2 | ⟨_, hin⟩
      · exact hq q (List.mem_cons_of_mem _ hmem2)
      · exact hin
    by_cases hel : compute_linear_index cfg e = compute_linear_index cfg c
    · rw [hel]
      rw [explore_cells_preserves_explored cfg _ n _ _ (by simp [updateCells])]
      rfl
    · by_cases hal : compute_linear_index cfg a = compute_linear_index cfg c
      · have hcin : inBounds cfg c := hq c (List.mem_cons_self _ _)
        have hac : a = c := by
          apply tidx_injOn cfg a c ha hcin
          rw [← compute_linear_index_eq_tidx cfg a hW ha,
            ← compute_linear_index_eq_tidx cfg c hW hcin]
          exact hal
        subst hac
        apply explore_cells_queue_covered
        · rw [mem_add_neighbours]
          exact Or.inr ⟨hadj, he⟩
        · simpa [updateCells, hel] using hnoe
      · exact ih hq2 a e ha he hadj hfin
          (by simpa [updateCells, hal] using hbefore)
          (by simpa [updateCells, hel] using hnoe)
  | case4 cells c rest mk heq ih =>
    intro hq a e ha he hadj hfin hbefore hnoe
    rw [explore_cells_cons_mine cfg cells c rest mk heq] at hfin ⊢
    exact ih (fun q hq2 => hq q (List.mem_cons_of_mem _ hq2)) a e ha he hadj hfin hbefore hnoe

/-- Soundness of the flood fill: every change the loop makes turns a
concealed-safe cell connected to the seed (in the starting board `cells0`)
into an explored cell with the same count. -/
theorem explore_cells_sound (cfg : GameConfiguration)
    (hW : cfg.width * cfg.height ≤ 65536) (cells0 : Nat → BoardCell) (c0 : Coordinate) :
    ∀ (cells : Nat → BoardCell) (queue : List Coordinate),
      (∀ q ∈ queue, inBounds cfg q) →
      (∀ q ∈ queue, (cells (compute_linear_index cfg q)).isNoMine = true →
        connected cfg cells0 c0 q) →
      (∀ i, cells i = cells0 i ∨ (cells i).isExplored = true) →
      ∀ d, inBounds cfg d →
        explore_cells cfg cells queue (compute_linear_index cfg d)
          ≠ cells (compute_linear_index cfg d) →
        ∃ mk n, cells (compute_linear_index cfg d) = .NoMine mk n
          ∧ explore_cells cfg cells queue (compute_linear_index cfg d) = .Explored n
          ∧ connected cfg cells0 c0 d := by
  intro cells queue
  induction cells, queue using explore_cells.induct cfg with
  | case1 cells =>
    intro _ _ _ d _ hne
    rw [explore_cells_nil] at hne
    exact absurd rfl hne
  | case2 cells c rest n heq ih =>
    intro hb hc hm d hd hne
    rw [explore_cells_cons_explored cfg cells c rest n heq] at hne ⊢
    exact ih (fun q hq => hb q (List.mem_cons_of_mem _ hq))
      (fun q hq => hc q (List.mem_cons_of_mem _ hq)) hm d hd hne
  | case3 cells c rest mk n heq ih =>
    intro hb hc hm d hd hne
    rw [explore_cells_cons_nomine cfg cells c rest mk n heq] at hne ⊢
    have hcin : inBounds cfg c := hb c (List.mem_cons_self _ _)
    have hconnc : connected cfg cells0 c0 c :=
      hc c (List.mem_cons_self _ _) (by rw [heq]; rfl)
    have hb2 : ∀ q ∈ add_neighbours cfg rest c, inBounds cfg q := by
      intro q hmem
      rcases (mem_add_neighbours cfg rest c q).mp hmem with hmem2 | ⟨_, hin⟩
      · exact hb q (List.mem_cons_of_mem _ hmem2)
      · exact hin
    have hc2 : ∀ q ∈ add_neighbours cfg rest c,
        ((updateCells cells (compute_linear_index cfg c) (.Explored n))
          (compute_linear_index cfg q)).isNoMine = true →
        connected cfg cells0 c0 q := by
      intro q hmem hno
      by_cases hql : compute_linear_index cfg q = compute_linear_index cfg c
      · rw [hql] at hno
        simp [updateCells, BoardCell.isExplored, BoardCell.isNoMine] at hno
      · have hno2 : (cells (compute_linear_index cfg q)).isNoMine = true := by
          simpa [updateCells, hql] using hno
        rcases (mem_add_neighbours cfg rest c q).mp hmem with hmem2 | ⟨hadj, hin⟩
        · exact hc q (List.mem_cons_of_mem _ hmem2) hno2
        · have hq0 : cells (compute_linear_index cfg q) = cells0 (compute_linear_index cfg q) := by
            rcases hm (compute_linear_index cfg q) with h | h
            · exact h
            · rcases hcell : cells (compute_linear_index cfg q) with n2 | ⟨mk2, n2⟩ | mk2 <;>
                rw [hcell] at hno2 <;> rw [hcell] at h <;> simp_all [BoardCell.isNoMine, BoardCell.isExplored]
          apply Relation.ReflTransGen.tail hconnc
          refine ⟨hadj, hin, ?_⟩
          rw [← compute_linear_index_eq_tidx cfg q hW hin, ← hq0]
          exact hno2
    have hm2 : ∀ i, (updateCells cells (compute_linear_index cfg c) (.Explored n)) i = cells0 i
        ∨ ((updateCells cells (compute_linear_index cfg c) (.Explored n)) i).isExplored = true := by
      intro i
      by_cases hil : i = compute_linear_index cfg c
      · right
        simp [updateCells, hil, BoardCell.isExplored]
      · simpa [updateCells, hil] using hm i
    by_cases hdl : compute_linear_index cfg d = compute_linear_index cfg c
    · have hdc : d = c := by
        apply tidx_injOn cfg d c hd hcin
        rw [← compute_linear_index_eq_tidx cfg d hW hd,
          ← compute_linear_index_eq_tidx cfg c hW hcin]
        exact hdl
      subst hdc
      refine ⟨mk, n, by rw [hdl]; exact heq, ?_, hconnc⟩
      rw [hdl]
      exact explore_cells_preserves_explored cfg _ n _ _ (by simp [updateCells])
    · by_cases hch : explore_cells cfg
          (updateCells cells (compute_linear_index cfg c) (.Explored n))
          (add_neighbours cfg rest c) (compute_linear_index cfg d)
          = (updateCells cells (compute_linear_index cfg c) (.Explored n))
              (compute_linear_index cfg d)
      · rw [hch] at hne ⊢
        exfalso
        exact hne (by simp [updateCells, hdl])
      · obtain ⟨mk2, n2, hno2, hexp2, hconn2⟩ := ih hb2 hc2 hm2 d hd hch
        refine ⟨mk2, n2, ?_, hexp2, hconn2⟩
        rw [← hno2]
        simp [updateCells, hdl]
  | case4 cells c rest mk heq ih =>
    intro hb hc hm d hd hne
    rw [explore_cells_cons_mine cfg cells c rest mk heq] at hne ⊢
    exact ih (fun q hq => hb q (List.mem_cons_of_mem _ hq))
      (fun q hq => hc q (List.mem_cons_of_mem _ hq)) hm d hd hne

/-- Along a connected path all cells are in bounds and concealed-safe. -/
theorem connected_target (cfg : GameConfiguration) (cells0 : Nat → BoardCell)
    (c0 : Coordinate) (hc0 : inBounds cfg c0)
    (h0 : (cells0 (tidx cfg c0)).isNoMine = true) :
    ∀ d, connected cfg cells0 c0 d →
      inBounds cfg d ∧ (cells0 (tidx cfg d)).isNoMine = true := by
  intro d h
  induction h with
  | refl => exact ⟨hc0, h0⟩
  | tail h1 h2 ih => exact ⟨h2.2.1, h2.2.2⟩

/-- Completeness of the flood fill: starting from a concealed-safe seed,
every cell connected to the seed ends up explored. -/
theorem explore_cells_complete (cfg : GameConfiguration)
    (hW : cfg.width * cfg.height ≤ 65536) (cells0 : Nat → BoardCell) (c0 : Coordinate)
    (hc0 : inBounds cfg c0) (h0 : (cells0 (tidx cfg c0)).isNoMine = true) :
    ∀ d, connected cfg cells0 c0 d →
      (explore_cells cfg cells0 [c0] (compute_linear_index cfg d)).isExplored = true := by
  have hseed : (explore_cells cfg cells0 [c0] (compute_linear_index cfg c0)).isExplored
      = true := by
    apply explore_cells_queue_covered cfg cells0 [c0] c0 (List.mem_cons_self _ _)
    rw [compute_linear_index_eq_tidx cfg c0 hW hc0]
    exact h0
  intro d hconn
  induction hconn with
  | refl => exact hseed
  | tail h1 h2 ih =>
    rename_i b d2
    obtain ⟨hbin, hbno⟩ := connected_target cfg cells0 c0 hc0 h0 b h1
    apply explore_cells_closure cfg hW cells0 [c0]
      (by intro q hq; rw [List.mem_singleton] at hq; rw [hq]; exact hc0)
      b d2 hbin h2.2.1 h2.1 ih
    · rw [compute_linear_index_eq_tidx cfg b hW hbin]
      rcases hcell : cells0 (tidx cfg b) with n2 | ⟨mk2, n2⟩ | mk2 <;>
        rw [hcell] at hbno <;> simp_all [BoardCell.isNoMine, BoardCell.isExplored]
    · rw [compute_linear_index_eq_tidx cfg d2 hW h2.2.1]
      exact h2.2.2

/-- A 257 x 257 board whose only concealed-safe cell, at coordinate
(256, 0) (exact linear index 65792), aliases under the wrapped `u16` index
to linear index 256, which holds a mine. -/
def overflowSafeCells : Nat → BoardCell :=
  fun i => if i = 65792 then .NoMine .NoMark 0 else .Mine .NoMark

/-- The board built from `overflowSafeCells`. -/
def overflowSafeBoard : GameBoard :=
  ⟨overflowConfig, 0, overflowSafeCells⟩

/-- Claim C1 counterexample: on the 257 x 257 board `overflowSafeBoard`,
the in-bounds coordinate (256, 0) is concealed-safe (exact linear index
65792), yet `Explore` there resolves to `MineHit`, not `Continue`, and
reveals nothing: the `u16` index arithmetic wraps 65792 to 256, where a
mine sits. -/
theorem explore_reveals_connected_region_cex :
    inBounds overflowConfig ⟨256, 0⟩
    ∧ overflowSafeBoard.cells (tidx overflowConfig ⟨256, 0⟩) = .NoMine .NoMark 0
    ∧ (overflowSafeBoard.explore ⟨256, 0⟩).2 = .MineHit
    ∧ (overflowSafeBoard.explore ⟨256, 0⟩).2 ≠ .Continue :=
  ⟨by decide, by decide, rfl, by decide⟩

/-- Claim C1, amended with the precondition that the board is small enough
for the 16-bit index arithmetic not to wrap (`width * height ≤ 65536`,
which claim C10 shows is necessary): exploring an in-bounds concealed-safe
cell `c` resolves to `Continue`, leaves the flagged-mine counter and
configuration unchanged, and reveals exactly the 8-connected region of
concealed-safe cells containing `c` — unconditionally, regardless of
neighbour counts: an in-bounds cell is newly explored if and only if it was
concealed-safe and connected to `c` through concealed-safe cells; each such
cell is revealed with its own neighbour count; every other cell (mines,
previously revealed cells and unconnected safe cells) keeps its exact
value. -/
theorem explore_reveals_connected_region (b : GameBoard) (c : Coordinate)
    (mk : Mark) (n : Nat)
    (hW : b.game_configuration.width * b.game_configuration.height ≤ 65536)
    (hc : inBounds b.game_configuration c)
    (hcell : b.cells (tidx b.game_configuration c) = .NoMine mk n) :
    (b.explore c).2 = .Continue
    ∧ (b.explore c).1.mines_discovered = b.mines_discovered
    ∧ (b.explore c).1.game_configuration = b.game_configuration
    ∧ ∀ d, inBounds b.game_configuration d →
        ((((b.explore c).1.cells (tidx b.game_configuration d)).isExplored = true
            ∧ (b.cells (tidx b.game_configuration d)).isExplored = false)
          ↔ ((b.cells (tidx b.game_configuration d)).isNoMine = true
              ∧ connected b.game_configuration b.cells c d))
        ∧ (∀ mk' n', b.cells (tidx b.game_configuration d) = .NoMine mk' n' →
            connected b.game_configuration b.cells c d →
            (b.explore c).1.cells (tidx b.game_configuration d) = .Explored n')
        ∧ (¬((b.cells (tidx b.game_configuration d)).isNoMine = true
              ∧ connected b.game_configuration b.cells c d) →
            (b.explore c).1.cells (tidx b.game_configuration d)
              = b.cells (tidx b.game_configuration d)) := by
  have hcli : compute_linear_index b.game_configuration c = tidx b.game_configuration c :=
    compute_linear_index_eq_tidx _ _ hW hc
  have hcell2 : b.cells (compute_linear_index b.game_configuration c) = .NoMine mk n := by
    rw [hcli]
    exact hcell
  have hexp : b.explore c
      = ({ b with cells := explore_cells b.game_configuration b.cells [c] }, .Continue) := by
    unfold GameBoard.explore
    rw [hcell2]
  have hsound := explore_cells_sound b.game_configuration hW b.cells c b.cells [c]
    (by intro q hq; rw [List.mem_singleton] at hq; rw [hq]; exact hc)
    (by intro q hq _; rw [List.mem_singleton] at hq; rw [hq]; exact Relation.ReflTransGen.refl)
    (by intro i; exact Or.inl rfl)
  have hcomp := explore_cells_complete b.game_configuration hW b.cells c hc
    (by rw [hcell]; rfl)
  rw [hexp]
  dsimp only
  refine ⟨rfl, rfl, rfl, ?_⟩
  intro d hd
  have hclid : compute_linear_index b.game_configuration d = tidx b.game_configuration d :=
    compute_linear_index_eq_tidx _ _ hW hd
  have hS : explore_cells b.game_configuration b.cells [c] (tidx b.game_configuration d)
      ≠ b.cells (tidx b.game_configuration d) →
      ∃ mk2 n2, b.cells (tidx b.game_configuration d) = .NoMine mk2 n2
        ∧ explore_cells b.game_configuration b.cells [c] (tidx b.game_configuration d)
            = .Explored n2
        ∧ connected b.game_configuration b.cells c d := by
    have := hsound d hd
    rwa [hclid] at this
  have hC : (b.cells (tidx b.game_configuration d)).isNoMine = true →
      connected b.game_configuration b.cells c d →
      (explore_cells b.game_configuration b.cells [c]
        (tidx b.game_configuration d)).isExplored = true := by
    intro _ hcn
    have := hcomp d hcn
    rwa [hclid] at this
  refine ⟨⟨?_, ?_⟩, ?_, ?_⟩
  · rintro ⟨hafter, hbefore⟩
    have hne : explore_cells b.game_configuration b.cells [c] (tidx b.game_configuration d)
        ≠ b.cells (tidx b.game_configuration d) := by
      intro he
      rw [he, hbefore] at hafter
      cases hafter
    obtain ⟨mk2, n2, hno, _, hcn⟩ := hS hne
    exact ⟨by rw [hno]; rfl, hcn⟩
  · rintro ⟨hno, hcn⟩
    refine ⟨hC hno hcn, ?_⟩
    rcases hv : b.cells (tidx b.game_configuration d) with n2 | ⟨mk2, n2⟩ | mk2 <;>
      rw [hv] at hno <;> simp_all [BoardCell.isNoMine, BoardCell.isExplored]
  · intro mk2 n2 hno hcn
    have hex := hC (by rw [hno]; rfl) hcn
    have hne : explore_cells b.game_configuration b.cells [c] (tidx b.game_configuration d)
        ≠ b.cells (tidx b.game_configuration d) := by
      intro he
      rw [he, hno] at hex
      cases hex
    obtain ⟨mk3, n3, hno3, hexp3, _⟩ := hS hne
    rw [hno] at hno3
    cases hno3
    exact hexp3
  · intro hncon
    by_contra hne
    obtain ⟨mk3, n3, hno3, _, hcn3⟩ := hS hne
    exact hncon ⟨by rw [hno3]; rfl, hcn3⟩

/-- Witness for `explore_reveals_connected_region` on a concrete 1 x 1
all-safe board. -/
theorem explore_reveals_connected_region_witness :
    (⟨1, 1, 0⟩ : GameConfiguration).width * (⟨1, 1, 0⟩ : GameConfiguration).height ≤ 65536
    ∧ inBounds ⟨1, 1, 0⟩ ⟨0, 0⟩
    ∧ ((⟨⟨1, 1, 0⟩, 0, fun _ => .NoMine .NoMark 0⟩ : GameBoard).explore ⟨0, 0⟩).2
        = .Continue :=
  ⟨by norm_num, ⟨by norm_num, by norm_num⟩,
    (explore_reveals_connected_region ⟨⟨1, 1, 0⟩, 0, fun _ => .NoMine .NoMark 0⟩ ⟨0, 0⟩
      .NoMark 0 (by norm_num) ⟨by norm_num, by norm_num⟩ rfl).1⟩

/-! ## Claim C2: mine generation and neighbour counts -/

/-- The skip condition of the `add_neighbours` loop body. -/
def offset_skipped (cfg : GameConfiguration) (center : Coordinate) (ij : Int × Int) : Prop :=
  ((center.row : Int) + ij.1 = (center.row : Int)
    ∧ (center.col : Int) + ij.2 = (center.col : Int))
  ∨ (center.row : Int) + ij.1 < 0
  ∨ (center.col : Int) + ij.2 < 0
  ∨ (center.row : Int) + ij.1 ≥ (cfg.height : Int)
  ∨ (center.col : Int) + ij.2 ≥ (cfg.width : Int)

instance (cfg : GameConfiguration) (center : Coordinate) (ij : Int × Int) :
    Decidable (offset_skipped cfg center ij) := by
  unfold offset_skipped
  infer_instance

/-- The coordinate pushed for a non-skipped offset. -/
def offset_coord (center : Coordinate) (ij : Int × Int) : Coordinate :=
  ⟨((center.row : Int) + ij.1).toNat, ((center.col : Int) + ij.2).toNat⟩

theorem push_neighbour_eq (cfg : GameConfiguration) (center : Coordinate)
    (q : List Coordinate) (ij : Int × Int) :
    push_neighbour cfg center q ij
      = if offset_skipped cfg center ij then q else offset_coord center ij :: q := by
  unfold push_neighbour
  dsimp only
  split
  · rename_i h
    rw [if_pos (show offset_skipped cfg center ij from h)]
  · rename_i h
    rw [if_neg (show ¬offset_skipped cfg center ij from h)]
    rfl

theorem foldl_push_eq (cfg : GameConfiguration) (center : Coordinate) :
    ∀ (offs : List (Int × Int)) (q : List Coordinate),
      offs.foldl (push_neighbour cfg center) q
        = ((offs.filter (fun ij => !decide (offset_skipped cfg center ij))).map
            (offset_coord center)).reverse ++ q := by
  intro offs
  induction offs with
  | nil => intro q; simp
  | cons ij offs ih =>
    intro q
    rw [List.foldl_cons, ih, push_neighbour_eq, List.filter_cons]
    by_cases h : offset_skipped cfg center ij
    · simp [h]
    · simp [h]

/-- The fresh neighbour list of a center contains no duplicate coordinates. -/
theorem add_neighbours_nil_nodup (cfg : GameConfiguration) (center : Coordinate) :
    (add_neighbours cfg [] center).Nodup := by
  rw [add_neighbours, foldl_push_eq, List.append_nil]
  rw [List.nodup_reverse]
  apply List.Nodup.map_on
  · intro x hx y hy hxy
    have hxs : ¬offset_skipped cfg center x := by
      simpa using (List.mem_filter.mp hx).2
    have hys : ¬offset_skipped cfg center y := by
      simpa using (List.mem_filter.mp hy).2
    unfold offset_skipped at hxs hys
    push_neg at hxs hys
    have h1 := congrArg Coordinate.row hxy
    have h2 := congrArg Coordinate.col hxy
    unfold offset_coord at h1 h2
    simp only at h1 h2
    obtain ⟨x1, x2⟩ := x
    obtain ⟨y1, y2⟩ := y
    simp only at h1 h2 hxs hys ⊢
    rw [Prod.mk.injEq]
    omega
  · exact List.Nodup.filter _ (by decide : neighbour_offsets.Nodup)

/-- A center has at most 9 pushed neighbours. -/
theorem add_neighbours_nil_length_le (cfg : GameConfiguration) (center : Coordinate) :
    (add_neighbours cfg [] center).length ≤ 9 := by
  rw [add_neighbours, foldl_push_eq, List.append_nil, List.length_reverse,
    List.length_map]
  calc (neighbour_offsets.filter
        (fun ij => !decide (offset_skipped cfg center ij))).length
      ≤ neighbour_offsets.length := List.length_filter_le _ _
    _ = 9 := rfl

/-- Cells after the mine-placement pass. -/
theorem foldl_place_mine_cells (ps : List Nat) :
    ∀ (b : GameBoard) (i : Nat),
      (ps.foldl place_mine b).cells i
        = if i ∈ ps then .Mine .NoMark else b.cells i := by
  induction ps with
  | nil =>
    intro b i
    simp
  | cons p ps ih =>
    intro b i
    rw [List.foldl_cons, ih]
    by_cases hip : i ∈ ps
    · simp [hip]
    · by_cases hipp : i = p
      · simp [hip, hipp, place_mine, updateCells]
      · simp [hip, hipp, place_mine, updateCells]

theorem foldl_place_mine_config (ps : List Nat) :
    ∀ b : GameBoard,
      (ps.foldl place_mine b).game_configuration = b.game_configuration := by
  induction ps with
  | nil => intro b; rfl
  | cons p ps ih =>
    intro b
    rw [List.foldl_cons, ih]
    rfl

theorem incr_neighbour_cells_other (b : GameBoard) (e : Coordinate) (i : Nat)
    (hne : compute_linear_index b.game_configuration e ≠ i) :
    (incr_neighbour b e).cells i = b.cells i := by
  unfold incr_neighbour
  split
  · show updateCells b.cells (compute_linear_index b.game_configuration e) _ i = b.cells i
    unfold updateCells
    rw [if_neg (fun h => hne h.symm)]
  · rfl

theorem incr_neighbour_preserves_not_nomine (b : GameBoard) (e : Coordinate) (i : Nat)
    (h : (b.cells i).isNoMine = false) :
    (incr_neighbour b e).cells i = b.cells i := by
  unfold incr_neighbour
  split
  · rename_i mk n heq
    show updateCells b.cells (compute_linear_index b.game_configuration e) _ i = b.cells i
    unfold updateCells
    by_cases hi : i = compute_linear_index b.game_configuration e
    · rw [hi, heq] at h
      simp [BoardCell.isNoMine] at h
    · rw [if_neg hi]
  · rfl

theorem foldl_incr_not_nomine (L : List Coordinate) :
    ∀ (b : GameBoard) (i : Nat), (b.cells i).isNoMine = false →
      (L.foldl incr_neighbour b).cells i = b.cells i := by
  induction L with
  | nil =>
    intro b i _
    rfl
  | cons e L ih =>
    intro b i h
    rw [List.foldl_cons]
    have hstep := incr_neighbour_preserves_not_nomine b e i h
    rw [ih (incr_neighbour b e) i (by rw [hstep]; exact h), hstep]

/-- Increment pass over one neighbour list: a concealed-safe cell with
mark `NoMark` receives one wrapped increment per occurrence of its linear
index among the list. -/
theorem foldl_incr_count (cfg : GameConfiguration) :
    ∀ (L : List Coordinate) (b : GameBoard), b.game_configuration = cfg →
      ∀ (i cnt : Nat), cnt < 256 → b.cells i = .NoMine .NoMark cnt →
        (L.foldl incr_neighbour b).cells i
          = .NoMine .NoMark ((cnt
              + L.countP (fun e => decide (compute_linear_index cfg e = i))) % 256) := by
  intro L
  induction L with
  | nil =>
    intro b _ i cnt hc hcell
    rw [List.foldl_nil, hcell, List.countP_nil, Nat.add_zero, Nat.mod_eq_of_lt hc]
  | cons e L ih =>
    intro b hb i cnt hc hcell
    rw [List.foldl_cons, List.countP_cons]
    have hbe : (incr_neighbour b e).game_configuration = cfg := by
      rw [(incr_neighbour_fields b e).2, hb]
    by_cases hei : compute_linear_index cfg e = i
    · have hstep : (incr_neighbour b e).cells i = .NoMine .NoMark ((cnt + 1) % 256) := by
        unfold incr_neighbour
        have hsc : b.cells (compute_linear_index b.game_configuration e)
            = .NoMine .NoMark cnt := by
          rw [hb, hei]
          exact hcell
        rw [hsc]
        show updateCells b.cells (compute_linear_index b.game_configuration e) _ i = _
        unfold updateCells
        rw [hb, hei, if_pos rfl]
      rw [ih (incr_neighbour b e) hbe i ((cnt + 1) % 256) (Nat.mod_lt _ (by omega)) hstep]
      have hcp : (if decide (compute_linear_index cfg e = i) then (1 : Nat) else 0) = 1 := by
        simp [hei]
      rw [hcp]
      congr 1
      rw [Nat.mod_add_mod]
      omega
    · have hstep : (incr_neighbour b e).cells i = b.cells i := by
        apply incr_neighbour_cells_other
        rw [hb]
        exact hei
      rw [ih (incr_neighbour b e) hbe i cnt hc (by rw [hstep]; exact hcell)]
      simp only [decide_eq_true_eq, if_neg hei, Nat.add_zero]

/-- The whole neighbour-count pass, cell by cell: cells that are not
concealed-safe are untouched; an unmarked concealed-safe cell ends with
one wrapped increment per adjacency to a processed mine position. -/
theorem foldl_mine_pass (cfg : GameConfiguration) :
    ∀ (ms : List Nat) (b : GameBoard), b.game_configuration = cfg →
      ∀ i,
        ((b.cells i).isNoMine = false →
          (ms.foldl incr_neighbours_of_mine b).cells i = b.cells i)
        ∧ (∀ cnt, cnt < 256 → b.cells i = .NoMine .NoMark cnt →
            (ms.foldl incr_neighbours_of_mine b).cells i
              = .NoMine .NoMark ((cnt + (ms.map (fun p =>
                  (add_neighbours cfg []
                      ⟨(p / cfg.width) % 65536, (p % cfg.width) % 65536⟩).countP
                    (fun e => decide (compute_linear_index cfg e = i)))).sum) % 256)) := by
  intro ms
  induction ms with
  | nil =>
    intro b _ i
    refine ⟨fun _ => rfl, fun cnt hc hcell => ?_⟩
    rw [List.foldl_nil, hcell, List.map_nil, List.sum_nil, Nat.add_zero,
      Nat.mod_eq_of_lt hc]
  | cons p ms ih =>
    intro b hb i
    have hstep_eq : incr_neighbours_of_mine b p
        = (add_neighbours cfg []
            ⟨(p / cfg.width) % 65536, (p % cfg.width) % 65536⟩).foldl incr_neighbour b := by
      unfold incr_neighbours_of_mine
      rw [hb]
    have hbp : (incr_neighbours_of_mine b p).game_configuration = cfg := by
      rw [(incr_neighbours_of_mine_fields b p).2, hb]
    constructor
    · intro hno
      rw [List.foldl_cons]
      have hstep : (incr_neighbours_of_mine b p).cells i = b.cells i := by
        rw [hstep_eq]
        exact foldl_incr_not_nomine _ b i hno
      rw [(ih (incr_neighbours_of_mine b p) hbp i).1 (by rw [hstep]; exact hno), hstep]
    · intro cnt hc hcell
      rw [List.foldl_cons, List.map_cons, List.sum_cons]
      have hstep : (incr_neighbours_of_mine b p).cells i
          = .NoMine .NoMark ((cnt + (add_neighbours cfg []
              ⟨(p / cfg.width) % 65536, (p % cfg.width) % 65536⟩).countP
                (fun e => decide (compute_linear_index cfg e = i))) % 256) := by
        rw [hstep_eq]
        exact foldl_incr_count cfg _ b hb i cnt hc hcell
      rw [(ih (incr_neighbours_of_mine b p) hbp i).2 _ (Nat.mod_lt _ (by omega)) hstep]
      congr 1
      rw [Nat.mod_add_mod]
      omega

/-- The wrapped `(p / w, p % w)` coordinate of a linear position on a
small board is exact, in bounds, and inverse to `tidx`. -/
theorem coord_of_position (cfg : GameConfiguration) (p : Nat)
    (hW : cfg.width * cfg.height ≤ 65536) (hp : p < cfg.width * cfg.height) :
    inBounds cfg ⟨(p / cfg.width) % 65536, (p % cfg.width) % 65536⟩
    ∧ tidx cfg ⟨(p / cfg.width) % 65536, (p % cfg.width) % 65536⟩ = p := by
  have hw : 0 < cfg.width := by
    rcases Nat.eq_zero_or_pos cfg.width with h0 | h
    · rw [h0, Nat.zero_mul] at hp; omega
    · exact h
  have hdiv : p / cfg.width < cfg.height := by
    rw [Nat.div_lt_iff_lt_mul hw]
    calc p < cfg.width * cfg.height := hp
      _ = cfg.height * cfg.width := Nat.mul_comm _ _
  have hmodw : p % cfg.width < cfg.width := Nat.mod_lt _ hw
  have hh65 : cfg.height ≤ 65536 := by
    calc cfg.height = 1 * cfg.height := (Nat.one_mul _).symm
      _ ≤ cfg.width * cfg.height := Nat.mul_le_mul_right _ hw
      _ ≤ 65536 := hW
  have hw65 : cfg.width ≤ 65536 := by
    have hh : 0 < cfg.height := by
      rcases Nat.eq_zero_or_pos cfg.height with h0 | h
      · rw [h0, Nat.mul_zero] at hp; omega
      · exact h
    calc cfg.width = cfg.width * 1 := (Nat.mul_one _).symm
      _ ≤ cfg.width * cfg.height := Nat.mul_le_mul_left _ hh
      _ ≤ 65536 := hW
  have e1 : (p / cfg.width) % 65536 = p / cfg.width := Nat.mod_eq_of_lt (by omega)
  have e2 : (p % cfg.width) % 65536 = p % cfg.width := Nat.mod_eq_of_lt (by omega)
  refine ⟨⟨?_, ?_⟩, ?_⟩
  · show (p / cfg.width) % 65536 < cfg.height
    omega
  · show (p % cfg.width) % 65536 < cfg.width
    omega
  · show (p / cfg.width) % 65536 * cfg.width + (p % cfg.width) % 65536 = p
    rw [e1, e2, Nat.mul_comm, Nat.div_add_mod]

/-- `tidx` is inverse to the wrapped coordinate computation on in-bounds
coordinates of a small board. -/
theorem position_of_coord (cfg : GameConfiguration) (e : Coordinate)
    (hW : cfg.width * cfg.height ≤ 65536) (he : inBounds cfg e) :
    (⟨(tidx cfg e / cfg.width) % 65536, (tidx cfg e % cfg.width) % 65536⟩ : Coordinate)
      = e := by
  obtain ⟨hr, hc⟩ := he
  have hw : 0 < cfg.width := by omega
  have hdiv : tidx cfg e / cfg.width = e.row := by
    unfold tidx
    rw [Nat.mul_comm, Nat.mul_add_div hw, Nat.div_eq_of_lt hc, Nat.add_zero]
  have hmod : tidx cfg e % cfg.width = e.col := by
    unfold tidx
    rw [Nat.mul_comm, Nat.mul_add_mod, Nat.mod_eq_of_lt hc]
  have hh65 : cfg.height ≤ 65536 := by
    calc cfg.height = 1 * cfg.height := (Nat.one_mul _).symm
      _ ≤ cfg.width * cfg.height := Nat.mul_le_mul_right _ hw
      _ ≤ 65536 := hW
  have hw65 : cfg.width ≤ 65536 := by
    have hh : 0 < cfg.height := by omega
    calc cfg.width = cfg.width * 1 := (Nat.mul_one _).symm
      _ ≤ cfg.width * cfg.height := Nat.mul_le_mul_left _ hh
      _ ≤ 65536 := hW
  rw [hdiv, hmod]
  have e1 : e.row % 65536 = e.row := Nat.mod_eq_of_lt (by omega)
  have e2 : e.col % 65536 = e.col := Nat.mod_eq_of_lt (by omega)
  rw [e1, e2]

theorem adjacent_comm (a b : Coordinate) : adjacent a b ↔ adjacent b a := by
  unfold adjacent
  constructor
  · rintro ⟨h1, h2, h3⟩
    exact ⟨fun h => h1 h.symm, by omega, by omega⟩
  · rintro ⟨h1, h2, h3⟩
    exact ⟨fun h => h1 h.symm, by omega, by omega⟩

theorem sum_indicator_eq_countP {α : Type} (l : List α) (f : α → Bool) :
    (l.map (fun a => if f a then (1 : Nat) else 0)).sum = l.countP f := by
  induction l with
  | nil => simp
  | cons a l ih =>
    rw [List.map_cons, List.sum_cons, List.countP_cons, ih]
    omega

theorem countP_toFinset {α : Type} [DecidableEq α] (l : List α) (hl : l.Nodup)
    (f : α → Bool) :
    l.countP f = (l.toFinset.filter (fun a => f a = true)).card := by
  rw [List.countP_eq_length_filter]
  rw [← List.toFinset_card_of_nodup (hl.filter f)]
  congr 1
  ext a
  simp [List.mem_filter]

theorem countP_eq_indicator {α : Type} [DecidableEq α] (l : List α) (hl : l.Nodup)
    (d : α) :
    l.countP (fun e => decide (e = d)) = if d ∈ l then 1 else 0 := by
  induction l with
  | nil => simp
  | cons a l ih =>
    rw [List.countP_cons]
    rcases List.nodup_cons.mp hl with ⟨ha, hl2⟩
    by_cases had : a = d
    · subst had
      rw [ih hl2]
      simp [ha]
    · rw [ih hl2]
      have hda : ¬d = a := fun h => had h.symm
      by_cases hdl : d ∈ l <;>
        simp [List.mem_cons, had, hdl, hda]

/-- Counting the mine positions adjacent to a fixed cell equals counting
the neighbours of that cell whose linear index is a mine position. -/
theorem countP_swap (cfg : GameConfiguration) (hW : cfg.width * cfg.height ≤ 65536)
    (ms : List Nat) (hms : ms.Nodup) (hmsb : ∀ p ∈ ms, p < cfg.width * cfg.height)
    (N : List Coordinate) (hN : N.Nodup) (hNb : ∀ e ∈ N, inBounds cfg e) :
    ms.countP (fun p =>
        decide ((⟨(p / cfg.width) % 65536, (p % cfg.width) % 65536⟩ : Coordinate) ∈ N))
      = N.countP (fun e => decide (tidx cfg e ∈ ms)) := by
  rw [countP_toFinset ms hms, countP_toFinset N hN]
  apply Finset.card_bij
    (fun p _ => (⟨(p / cfg.width) % 65536, (p % cfg.width) % 65536⟩ : Coordinate))
  · intro p hp
    rw [Finset.mem_filter] at hp ⊢
    obtain ⟨hp1, hp2⟩ := hp
    rw [List.mem_toFinset] at hp1
    simp only [decide_eq_true_eq] at hp2
    refine ⟨List.mem_toFinset.mpr hp2, ?_⟩
    simp only [decide_eq_true_eq]
    rw [(coord_of_position cfg p hW (hmsb p hp1)).2]
    exact hp1
  · intro p hp p2 hp2 heq
    have hm1 : p ∈ ms := List.mem_toFinset.mp (Finset.mem_filter.mp hp).1
    have hm2 : p2 ∈ ms := List.mem_toFinset.mp (Finset.mem_filter.mp hp2).1
    have h1 := (coord_of_position cfg p hW (hmsb p hm1)).2
    have h2 := (coord_of_position cfg p2 hW (hmsb p2 hm2)).2
    rw [← h1, ← h2, heq]
  · intro e he
    rw [Finset.mem_filter] at he
    obtain ⟨he1, he2⟩ := he
    rw [List.mem_toFinset] at he1
    simp only [decide_eq_true_eq] at he2
    refine ⟨tidx cfg e, ?_, ?_⟩
    · rw [Finset.mem_filter, List.mem_toFinset]
      refine ⟨he2, ?_⟩
      simp only [decide_eq_true_eq]
      rw [position_of_coord cfg e hW (hNb e he1)]
      exact he1
    · exact position_of_coord cfg e hW (hNb e he1)

/-- Claim C2 counterexample helper: the shuffled positions of a 257 x 257
board with one mine at linear position 65792 (coordinate (256, 0)). -/
def overflowPerm : List Nat := 65792 :: (List.range (257 * 257)).erase 65792

/-- The 257 x 257 configuration with one mine. -/
def overflowGenConfig : GameConfiguration := ⟨257, 257, 1⟩

/-- Claim C2 counterexample: on a 257 x 257 board (66049 cells, exceeding
the 65536 values of a `u16`), generating a single mine at linear position
65792 (coordinate (256, 0)) writes a neighbour-count increment through the
wrapped `u16` index into cell 257 (coordinate (1, 0)), which is nowhere
near the mine: that concealed-safe cell ends with `NeighbourCount` 1
although it has 0 adjacent concealed-mine cells. -/
theorem generate_world_spec_cex :
    overflowPerm.Perm
      (List.range (overflowGenConfig.width * overflowGenConfig.height))
    ∧ overflowGenConfig.total_mines
        ≤ overflowGenConfig.width * overflowGenConfig.height
    ∧ inBounds overflowGenConfig ⟨1, 0⟩
    ∧ (generate_world (GameBoard.new overflowGenConfig) overflowPerm).cells
        (tidx overflowGenConfig ⟨1, 0⟩) = .NoMine .NoMark 1
    ∧ (add_neighbours overflowGenConfig [] ⟨1, 0⟩).countP
        (fun e => ((generate_world (GameBoard.new overflowGenConfig) overflowPerm).cells
          (tidx overflowGenConfig e)).isMine) = 0
    ∧ (1 : Nat) ≠ 0 := by
  refine ⟨?_, by decide, by decide, by decide, by decide, by decide⟩
  exact (List.perm_cons_erase (List.mem_range.mpr (by norm_num))).symm

/-- Claim C2, amended with the precondition that the board is small enough
for the 16-bit index arithmetic not to wrap (`width * height ≤ 65536`,
which claim C10 shows is necessary): for every configuration with
`total_mines ≤ width * height`, after `new` followed by `generate_world`
on any shuffle (permutation of all cell positions), exactly `total_mines`
cells are concealed mines, and every concealed-safe cell carries as
`NeighbourCount` exactly the number of its bounds-checked 8-adjacent cells
that are concealed mines. -/
theorem generate_world_spec (cfg : GameConfiguration) (mine_positions : List Nat)
    (hW : cfg.width * cfg.height ≤ 65536)
    (hperm : mine_positions.Perm (List.range (cfg.width * cfg.height)))
    (hm : cfg.total_mines ≤ cfg.width * cfg.height) :
    ((Finset.range (cfg.width * cfg.height)).filter
        (fun i => ((generate_world (GameBoard.new cfg) mine_positions).cells i).isMine
          = true)).card = cfg.total_mines
    ∧ ∀ d, inBounds cfg d → ∀ mk n,
        (generate_world (GameBoard.new cfg) mine_positions).cells (tidx cfg d)
          = .NoMine mk n →
        n = (add_neighbours cfg [] d).countP
              (fun e => ((generate_world (GameBoard.new cfg) mine_positions).cells
                (tidx cfg e)).isMine) := by
  have hgen : generate_world (GameBoard.new cfg) mine_positions
      = (mine_positions.take cfg.total_mines).foldl incr_neighbours_of_mine
          ((mine_positions.take cfg.total_mines).foldl place_mine (GameBoard.new cfg)) :=
    rfl
  have hnodup : (mine_positions.take cfg.total_mines).Nodup :=
    List.Nodup.sublist (List.take_sublist _ _)
      (hperm.nodup_iff.mpr (List.nodup_range _))
  have hmem_lt : ∀ p ∈ mine_positions.take cfg.total_mines,
      p < cfg.width * cfg.height := by
    intro p hp
    have h1 : p ∈ mine_positions := List.mem_of_mem_take hp
    exact List.mem_range.mp (hperm.mem_iff.mp h1)
  have hlen : (mine_positions.take cfg.total_mines).length = cfg.total_mines := by
    rw [List.length_take, hperm.length_eq, List.length_range]
    omega
  have hb1c : ∀ i,
      ((mine_positions.take cfg.total_mines).foldl place_mine (GameBoard.new cfg)).cells i
        = if i ∈ mine_positions.take cfg.total_mines then .Mine .NoMark
          else .NoMine .NoMark 0 := by
    intro i
    rw [foldl_place_mine_cells]
    rfl
  have hb1cfg :
      ((mine_positions.take cfg.total_mines).foldl place_mine
        (GameBoard.new cfg)).game_configuration = cfg :=
    foldl_place_mine_config _ _
  have hmine : ∀ i,
      (((generate_world (GameBoard.new cfg) mine_positions).cells i).isMine = true
        ↔ i ∈ mine_positions.take cfg.total_mines) := by
    intro i
    rw [hgen]
    by_cases hip : i ∈ mine_positions.take cfg.total_mines
    · have hb1 : ((mine_positions.take cfg.total_mines).foldl place_mine
          (GameBoard.new cfg)).cells i = .Mine .NoMark := by
        rw [hb1c, if_pos hip]
      have hpass := (foldl_mine_pass cfg (mine_positions.take cfg.total_mines) _
        hb1cfg i).1 (by rw [hb1]; rfl)
      rw [hpass, hb1]
      simp [BoardCell.isMine, hip]
    · have hb1 : ((mine_positions.take cfg.total_mines).foldl place_mine
          (GameBoard.new cfg)).cells i = .NoMine .NoMark 0 := by
        rw [hb1c, if_neg hip]
      have hpass := (foldl_mine_pass cfg (mine_positions.take cfg.total_mines) _
        hb1cfg i).2 0 (by omega) hb1
      rw [hpass]
      simp [BoardCell.isMine, hip]
  constructor
  · have hset : (Finset.range (cfg.width * cfg.height)).filter
        (fun i => ((generate_world (GameBoard.new cfg) mine_positions).cells i).isMine
          = true)
        = (mine_positions.take cfg.total_mines).toFinset := by
      ext i
      rw [Finset.mem_filter, Finset.mem_range, List.mem_toFinset]
      constructor
      · rintro ⟨_, h2⟩
        exact (hmine i).mp h2
      · intro h
        exact ⟨hmem_lt i h, (hmine i).mpr h⟩
    rw [hset, List.toFinset_card_of_nodup hnodup, hlen]
  · intro d hd mk n hcell
    have hdp : tidx cfg d ∉ mine_positions.take cfg.total_mines := by
      intro hmem
      have h2 := (hmine (tidx cfg d)).mpr hmem
      rw [hcell] at h2
      simp [BoardCell.isMine] at h2
    have hb1 : ((mine_positions.take cfg.total_mines).foldl place_mine
        (GameBoard.new cfg)).cells (tidx cfg d) = .NoMine .NoMark 0 := by
      rw [hb1c, if_neg hdp]
    have hval := (foldl_mine_pass cfg (mine_positions.take cfg.total_mines) _
      hb1cfg (tidx cfg d)).2 0 (by omega) hb1
    rw [hgen, hval] at hcell
    have hn : n = (((mine_positions.take cfg.total_mines).map (fun p =>
        (add_neighbours cfg []
            ⟨(p / cfg.width) % 65536, (p % cfg.width) % 65536⟩).countP
          (fun e => decide (compute_linear_index cfg e = tidx cfg d)))).sum) % 256 := by
      injection hcell with h1 h2
      omega
    have hNnodup : (add_neighbours cfg [] d).Nodup := add_neighbours_nil_nodup cfg d
    have hNb : ∀ e ∈ add_neighbours cfg [] d, inBounds cfg e := by
      intro e he
      rcases (mem_add_neighbours cfg [] d e).mp he with h | ⟨_, h⟩
      · cases h
      · exact h
    have hper : ∀ p ∈ mine_positions.take cfg.total_mines,
        (add_neighbours cfg []
            ⟨(p / cfg.width) % 65536, (p % cfg.width) % 65536⟩).countP
          (fun e => decide (compute_linear_index cfg e = tidx cfg d))
        = if (⟨(p / cfg.width) % 65536, (p % cfg.width) % 65536⟩ : Coordinate)
              ∈ add_neighbours cfg [] d then 1 else 0 := by
      intro p hp
      obtain ⟨hcpb, hcpt⟩ := coord_of_position cfg p hW (hmem_lt p hp)
      have hcong : (add_neighbours cfg []
          ⟨(p / cfg.width) % 65536, (p % cfg.width) % 65536⟩).countP
            (fun e => decide (compute_linear_index cfg e = tidx cfg d))
          = (add_neighbours cfg []
              ⟨(p / cfg.width) % 65536, (p % cfg.width) % 65536⟩).countP
            (fun e => decide (e = d)) := by
        apply List.countP_congr
        intro e he
        have heb : inBounds cfg e := by
          rcases (mem_add_neighbours cfg [] _ e).mp he with h | ⟨_, h⟩
          · cases h
          · exact h
        simp only [decide_eq_true_eq]
        rw [compute_linear_index_eq_tidx cfg e hW heb]
        constructor
        · intro h
          exact tidx_injOn cfg e d heb hd h
        · intro h
          rw [h]
      rw [hcong, countP_eq_indicator _ (add_neighbours_nil_nodup cfg _) d]
      have hmemiff : d ∈ add_neighbours cfg []
            ⟨(p / cfg.width) % 65536, (p % cfg.width) % 65536⟩
          ↔ (⟨(p / cfg.width) % 65536, (p % cfg.width) % 65536⟩ : Coordinate)
            ∈ add_neighbours cfg [] d := by
        rw [mem_add_neighbours, mem_add_neighbours]
        constructor
        · rintro (h | ⟨hadj, _⟩)
          · cases h
          · exact Or.inr ⟨(adjacent_comm _ _).mp hadj, hcpb⟩
        · rintro (h | ⟨hadj, _⟩)
          · cases h
          · exact Or.inr ⟨(adjacent_comm _ _).mp hadj, hd⟩
      by_cases hmemd : d ∈ add_neighbours cfg []
          ⟨(p / cfg.width) % 65536, (p % cfg.width) % 65536⟩
      · rw [if_pos hmemd, if_pos (hmemiff.mp hmemd)]
      · rw [if_neg hmemd, if_neg (fun h => hmemd (hmemiff.mpr h))]
    have hsum : (((mine_positions.take cfg.total_mines).map (fun p =>
        (add_neighbours cfg []
            ⟨(p / cfg.width) % 65536, (p % cfg.width) % 65536⟩).countP
          (fun e => decide (compute_linear_index cfg e = tidx cfg d)))).sum)
        = (mine_positions.take cfg.total_mines).countP (fun p =>
            decide ((⟨(p / cfg.width) % 65536, (p % cfg.width) % 65536⟩ : Coordinate)
              ∈ add_neighbours cfg [] d)) := by
      rw [← sum_indicator_eq_countP]
      congr 1
      apply List.map_congr_left
      intro p hp
      rw [hper p hp]
      by_cases hmemd : (⟨(p / cfg.width) % 65536, (p % cfg.width) % 65536⟩ : Coordinate)
          ∈ add_neighbours cfg [] d
      · rw [if_pos hmemd, if_pos (by simpa using hmemd)]
      · rw [if_neg hmemd, if_neg (by simpa using hmemd)]
    have hswap := countP_swap cfg hW (mine_positions.take cfg.total_mines) hnodup
      hmem_lt (add_neighbours cfg [] d) hNnodup hNb
    have hfinal : (add_neighbours cfg [] d).countP
        (fun e => decide (tidx cfg e ∈ mine_positions.take cfg.total_mines))
        = (add_neighbours cfg [] d).countP
            (fun e => ((generate_world (GameBoard.new cfg) mine_positions).cells
              (tidx cfg e)).isMine) := by
      apply List.countP_congr
      intro e _
      rw [decide_eq_true_eq]
      exact (hmine (tidx cfg e)).symm
    have hbound : (add_neighbours cfg [] d).countP
        (fun e => decide (tidx cfg e ∈ mine_positions.take cfg.total_mines)) < 256 := by
      calc (add_neighbours cfg [] d).countP _
          ≤ (add_neighbours cfg [] d).length := List.countP_le_length _
        _ ≤ 9 := add_neighbours_nil_length_le cfg d
        _ < 256 := by norm_num
    rw [hn, hsum, hswap, Nat.mod_eq_of_lt hbound, hfinal]

/-- Witness for `generate_world_spec` on a concrete 2 x 2 board with one
mine and the identity shuffle. -/
theorem generate_world_spec_witness :
    (List.range (2 * 2)).Perm
      (List.range ((⟨2, 2, 1⟩ : GameConfiguration).width
        * (⟨2, 2, 1⟩ : GameConfiguration).height))
    ∧ ((Finset.range ((⟨2, 2, 1⟩ : GameConfiguration).width
          * (⟨2, 2, 1⟩ : GameConfiguration).height)).filter
        (fun i => ((generate_world (GameBoard.new ⟨2, 2, 1⟩) (List.range (2 * 2))).cells
          i).isMine = true)).card = (⟨2, 2, 1⟩ : GameConfiguration).total_mines :=
  ⟨List.Perm.refl _,
    (generate_world_spec ⟨2, 2, 1⟩ (List.range (2 * 2)) (by norm_num)
      (List.Perm.refl _) (by norm_num)).1⟩

/-! ## Claim C8: parsing well-formed commands -/

theorem isWhitespaceChar_spec (c : Char) (h : isWhitespaceChar c = true) :
    c = ' ' ∨ c = '\t' ∨ c = '\n' ∨ c = '\r' := by
  have h2 : ((c = ' ' ∨ c = '\t') ∨ c = '\n') ∨ c = '\r' := by
    simpa [isWhitespaceChar] using h
  tauto

theorem ws_char_facts (c : Char) (h : isWhitespaceChar c = true) :
    toLowerChar c = c ∧ c ≠ '(' ∧ c ≠ ',' := by
  rcases isWhitespaceChar_spec c h with rfl | rfl | rfl | rfl <;>
    exact ⟨by decide, by decide, by decide⟩

theorem digit_char_facts (c : Char) (h : c.isDigit = true) :
    toLowerChar c = c ∧ isWhitespaceChar c = false ∧ c ≠ '(' ∧ c ≠ ','
    ∧ (!(c = '\n' || c = ')')) = true := by
  have h48 : 48 ≤ c.toNat ∧ c.toNat ≤ 57 := by
    simpa [Char.isDigit, Char.le_def, decide_eq_true_eq] using h
  refine ⟨?_, ?_, ?_, ?_, ?_⟩
  · unfold toLowerChar
    rw [if_neg]
    rintro ⟨h1, _⟩
    have h65 : 65 ≤ c.toNat := by
      rw [Char.le_def] at h1
      exact h1
    omega
  · by_contra hw
    rw [Bool.not_eq_false] at hw
    rcases isWhitespaceChar_spec c hw with rfl | rfl | rfl | rfl <;>
      exact absurd h (by decide)
  · intro hc
    rw [hc] at h
    exact absurd h (by decide)
  · intro hc
    rw [hc] at h
    exact absurd h (by decide)
  · rw [Bool.not_eq_true']
    rw [Bool.or_eq_false_iff]
    constructor
    · rw [decide_eq_false_iff_not]
      intro hc
      rw [hc] at h
      exact absurd h (by decide)
    · rw [decide_eq_false_iff_not]
      intro hc
      rw [hc] at h
      exact absurd h (by decide)

theorem headI_mem_of_ne_nil {α : Type} [Inhabited α] {l : List α} (h : l ≠ []) :
    l.headI ∈ l := by
  cases l with
  | nil => exact absurd rfl h
  | cons a l => simp

theorem headI_append {α : Type} [Inhabited α] {l1 l2 : List α} (h : l1 ≠ []) :
    (l1 ++ l2).headI = l1.headI := by
  cases l1 with
  | nil => exact absurd rfl h
  | cons a l => simp

theorem dropWhile_append_of_forall {α : Type} (p : α → Bool) (l1 l2 : List α)
    (h : ∀ a ∈ l1, p a = true) :
    (l1 ++ l2).dropWhile p = l2.dropWhile p := by
  induction l1 with
  | nil => simp
  | cons a l ih =>
    rw [List.cons_append, List.dropWhile_cons, if_pos (h a (List.mem_cons_self _ _))]
    exact ih (fun a ha => h a (List.mem_cons_of_mem _ ha))

theorem dropWhile_of_headI_false {α : Type} [Inhabited α] (p : α → Bool) (l : List α)
    (hne : l ≠ []) (hh : p l.headI = false) :
    l.dropWhile p = l := by
  cases l with
  | nil => exact absurd rfl hne
  | cons a l =>
    rw [List.dropWhile_cons, if_neg]
    rw [List.headI_cons] at hh
    rw [hh]
    exact Bool.false_ne_true

/-- `trim` of a string made of leading whitespace, a core not starting or
ending with whitespace, and trailing whitespace, is exactly the core. -/
theorem trimChars_sandwich (ws1 mid ws2 : List Char)
    (h1 : ∀ a ∈ ws1, isWhitespaceChar a = true)
    (h2 : ∀ a ∈ ws2, isWhitespaceChar a = true)
    (hm : mid ≠ [])
    (hh : isWhitespaceChar mid.headI = false)
    (hl : isWhitespaceChar mid.reverse.headI = false) :
    trimChars (ws1 ++ mid ++ ws2) = mid := by
  have hmrev : mid.reverse ≠ [] := by
    intro h
    exact hm (by simpa using congrArg List.reverse h)
  unfold trimChars
  rw [List.append_assoc, dropWhile_append_of_forall _ ws1 _ h1]
  rw [dropWhile_of_headI_false _ (mid ++ ws2)
    (by intro h; exact hm (List.append_eq_nil.mp h).1)
    (by rw [headI_append hm]; exact hh)]
  rw [List.reverse_append,
    dropWhile_append_of_forall _ ws2.reverse _
      (fun a ha => h2 a (List.mem_reverse.mp ha)),
    dropWhile_of_headI_false _ mid.reverse hmrev hl,
    List.reverse_reverse]

theorem splitOnceChar_append (c : Char) (l1 l2 : List Char) (h : c ∉ l1) :
    splitOnceChar c (l1 ++ c :: l2) = some (l1, l2) := by
  induction l1 with
  | nil => simp [splitOnceChar]
  | cons a l ih =>
    rw [List.cons_append]
    unfold splitOnceChar
    rw [if_neg (fun hac => h (by rw [hac]; exact List.mem_cons_self _ _))]
    rw [ih (fun hc => h (List.mem_cons_of_mem _ hc))]
    rfl

/-- The numeric value of a digit string. -/
def digitsVal (l : List Char) : Nat :=
  l.foldl (fun a c => a * 10 + (c.toNat - 48)) 0

theorem foldl_digits_mono (l : List Char) :
    ∀ acc : Nat, acc ≤ l.foldl (fun a c => a * 10 + (c.toNat - 48)) acc := by
  induction l with
  | nil => intro acc; exact le_refl _
  | cons c l ih =>
    intro acc
    calc acc ≤ acc * 10 + (c.toNat - 48) := by omega
      _ ≤ l.foldl (fun a c => a * 10 + (c.toNat - 48)) (acc * 10 + (c.toNat - 48)) := ih _

theorem parseDigits_ok (bound : Nat) :
    ∀ (l : List Char) (acc : Nat), (∀ c ∈ l, c.isDigit = true) →
      l.foldl (fun a c => a * 10 + (c.toNat - 48)) acc ≤ bound →
      parseDigits bound l acc
        = .ok (l.foldl (fun a c => a * 10 + (c.toNat - 48)) acc) := by
  intro l
  induction l with
  | nil =>
    intro acc _ _
    rfl
  | cons c cs ih =>
    intro acc hd hb
    simp only [parseDigits]
    rw [if_pos (hd c (List.mem_cons_self _ _))]
    rw [List.foldl_cons] at hb
    have hstep : acc * 10 + (c.toNat - 48) ≤ bound :=
      le_trans (foldl_digits_mono cs _) hb
    rw [if_neg (by omega)]
    rw [List.foldl_cons]
    exact ih _ (fun a ha => hd a (List.mem_cons_of_mem _ ha)) hb

theorem parse_u16_digits (l : List Char) (hne : l ≠ [])
    (hd : ∀ c ∈ l, c.isDigit = true) (hb : digitsVal l ≤ 65535) :
    parse_u16 l = .ok (digitsVal l) := by
  unfold parse_u16 parseUnsigned
  cases l with
  | nil => exact absurd rfl hne
  | cons c cs =>
    dsimp only
    rw [if_neg (fun hc => by
      rw [hc] at hd
      exact absurd (hd '+' (List.mem_cons_self _ _)) (by decide))]
    exact parseDigits_ok 65535 (c :: cs) 0 hd hb

theorem map_id_of_forall {α : Type} (f : α → α) (l : List α)
    (h : ∀ a ∈ l, f a = a) : l.map f = l := by
  rw [List.map_congr_left h]
  simp

/-- A well-formed command body: verb, optional whitespace, opening
parenthesis, optional whitespace, row digits, comma, optional whitespace,
column digits, optional whitespace, closing parenthesis. -/
def command_core (verb ws1 ws2 ws3 ws4 row col : List Char) : List Char :=
  (verb ++ ws1) ++ '(' :: (ws2 ++ (row ++ ',' :: (ws3 ++ (col ++ (ws4 ++ [')'])))))

theorem mem_command_core (verb ws1 ws2 ws3 ws4 row col : List Char) (a : Char) :
    a ∈ command_core verb ws1 ws2 ws3 ws4 row col ↔
      a ∈ verb ∨ a ∈ ws1 ∨ a = '(' ∨ a ∈ ws2 ∨ a ∈ row ∨ a = ',' ∨ a ∈ ws3
        ∨ a ∈ col ∨ a ∈ ws4 ∨ a = ')' := by
  unfold command_core
  simp only [List.mem_append, List.mem_cons, List.mem_singleton]
  tauto

/-- Running the parser on a well-formed command string with optional
whitespace in every tolerated slot: the two coordinates parse to the
values of the digit fields and only the verb remains to be looked up. -/
theorem try_from_wellformed (verb ws0 ws1 ws2 ws3 ws4 ws5 row col : List Char)
    (hvne : verb ≠ [])
    (hv : ∀ c ∈ verb, toLowerChar c = c ∧ isWhitespaceChar c = false ∧ c ≠ '(')
    (hws0 : ∀ c ∈ ws0, isWhitespaceChar c = true)
    (hws1 : ∀ c ∈ ws1, isWhitespaceChar c = true)
    (hws2 : ∀ c ∈ ws2, isWhitespaceChar c = true)
    (hws3 : ∀ c ∈ ws3, isWhitespaceChar c = true)
    (hws4 : ∀ c ∈ ws4, isWhitespaceChar c = true)
    (hws5 : ∀ c ∈ ws5, isWhitespaceChar c = true)
    (hrne : row ≠ []) (hrow : ∀ c ∈ row, c.isDigit = true)
    (hrb : digitsVal row ≤ 65535)
    (hcne : col ≠ []) (hcol : ∀ c ∈ col, c.isDigit = true)
    (hcb : digitsVal col ≤ 65535) :
    BoardCommand.try_from (ws0 ++ command_core verb ws1 ws2 ws3 ws4 row col ++ ws5)
      = (if verb = "clear".data then .ok (.ClearMark ⟨digitsVal row, digitsVal col⟩)
        else if verb = "flag".data then .ok (.SetMarkFlag ⟨digitsVal row, digitsVal col⟩)
        else if verb = "note".data then .ok (.SetMarkNote ⟨digitsVal row, digitsVal col⟩)
        else if verb = "explore".data then .ok (.Explore ⟨digitsVal row, digitsVal col⟩)
        else .error .NotFound) := by
  have hmap : ((ws0 ++ command_core verb ws1 ws2 ws3 ws4 row col ++ ws5).map toLowerChar)
      = ws0 ++ command_core verb ws1 ws2 ws3 ws4 row col ++ ws5 := by
    apply map_id_of_forall
    intro a ha
    rw [List.mem_append, List.mem_append] at ha
    rcases ha with (ha | ha) | ha
    · exact (ws_char_facts a (hws0 a ha)).1
    · rcases (mem_command_core verb ws1 ws2 ws3 ws4 row col a).mp ha with
        h | h | rfl | h | h | rfl | h | h | h | rfl
      · exact (hv a h).1
      · exact (ws_char_facts a (hws1 a h)).1
      · decide
      · exact (ws_char_facts a (hws2 a h)).1
      · exact (digit_char_facts a (hrow a h)).1
      · decide
      · exact (ws_char_facts a (hws3 a h)).1
      · exact (digit_char_facts a (hcol a h)).1
      · exact (ws_char_facts a (hws4 a h)).1
      · decide
    · exact (ws_char_facts a (hws5 a ha)).1
  have hcorene : command_core verb ws1 ws2 ws3 ws4 row col ≠ [] := by
    intro h
    unfold command_core at h
    rcases List.append_eq_nil.mp h with ⟨_, h2⟩
    cases h2
  have htrim : trimChars (ws0 ++ command_core verb ws1 ws2 ws3 ws4 row col ++ ws5)
      = command_core verb ws1 ws2 ws3 ws4 row col := by
    apply trimChars_sandwich _ _ _ hws0 hws5 hcorene
    · unfold command_core
      rw [headI_append (by intro h; exact hvne (List.append_eq_nil.mp h).1),
        headI_append hvne]
      exact (hv verb.headI (headI_mem_of_ne_nil hvne)).2.1
    · have hrev : (command_core verb ws1 ws2 ws3 ws4 row col).reverse.headI = ')' := by
        unfold command_core
        simp [List.reverse_append]
      rw [hrev]
      decide
  have hpar : ('(' : Char) ∈ command_core verb ws1 ws2 ws3 ws4 row col :=
    (mem_command_core verb ws1 ws2 ws3 ws4 row col '(').mpr
      (Or.inr (Or.inr (Or.inl rfl)))
  have hpass : command_core verb ws1 ws2 ws3 ws4 row col ≠ "pass".data := by
    intro h
    rw [h] at hpar
    exact absurd hpar (by decide)
  have hquit : command_core verb ws1 ws2 ws3 ws4 row col ≠ "quit".data := by
    intro h
    rw [h] at hpar
    exact absurd hpar (by decide)
  have hsplit : splitOnceChar '(' (command_core verb ws1 ws2 ws3 ws4 row col)
      = some (verb ++ ws1,
          ws2 ++ (row ++ ',' :: (ws3 ++ (col ++ (ws4 ++ [')']))))) := by
    unfold command_core
    apply splitOnceChar_append
    rw [List.mem_append]
    rintro (h | h)
    · exact (hv '(' h).2.2 rfl
    · exact (ws_char_facts '(' (hws1 '(' h)).2.1 rfl
  have hmid2ne : (row ++ ',' :: (ws3 ++ (col ++ (ws4 ++ [')'])))) ≠ [] := by
    intro h
    rcases List.append_eq_nil.mp h with ⟨_, h2⟩
    cases h2
  have hvtrim : trimChars (ws2 ++ (row ++ ',' :: (ws3 ++ (col ++ (ws4 ++ [')'])))))
      = row ++ ',' :: (ws3 ++ (col ++ (ws4 ++ [')']))) := by
    have hshape : ws2 ++ (row ++ ',' :: (ws3 ++ (col ++ (ws4 ++ [')']))))
        = ws2 ++ (row ++ ',' :: (ws3 ++ (col ++ (ws4 ++ [')'])))) ++ [] := by
      rw [List.append_nil]
    rw [hshape]
    apply trimChars_sandwich _ _ _ hws2 (by intro a ha; cases ha) hmid2ne
    · rw [headI_append hrne]
      exact (digit_char_facts row.headI (hrow _ (headI_mem_of_ne_nil hrne))).2.1
    · have hrev : (row ++ ',' :: (ws3 ++ (col ++ (ws4 ++ [')'])))).reverse.headI
          = ')' := by
        simp [List.reverse_append]
      rw [hrev]
      decide
  have hsplit2 : splitOnceChar ',' (row ++ ',' :: (ws3 ++ (col ++ (ws4 ++ [')']))))
      = some (row, ws3 ++ (col ++ (ws4 ++ [')']))) := by
    apply splitOnceChar_append
    intro h
    exact (digit_char_facts ',' (hrow ',' h)).2.2.2.1 rfl
  have hx : parse_u16 row = .ok (digitsVal row) := parse_u16_digits row hrne hrow hrb
  have hfilter : (ws3 ++ (col ++ (ws4 ++ [')']))).filter
        (fun c => !(c = '\n' || c = ')'))
      = ws3.filter (fun c => !(c = '\n' || c = ')'))
        ++ (col ++ ws4.filter (fun c => !(c = '\n' || c = ')'))) := by
    rw [List.filter_append, List.filter_append, List.filter_append]
    rw [List.filter_eq_self.mpr (fun c hc => (digit_char_facts c (hcol c hc)).2.2.2.2)]
    rw [show (([')'] : List Char).filter (fun c => !(c = '\n' || c = ')'))) = []
      from rfl]
    rw [List.append_nil]
  have hytrim : trimChars (ws3.filter (fun c => !(c = '\n' || c = ')'))
        ++ (col ++ ws4.filter (fun c => !(c = '\n' || c = ')'))))
      = col := by
    rw [← List.append_assoc]
    apply trimChars_sandwich _ _ _
      (fun a ha => hws3 a (List.mem_filter.mp ha).1)
      (fun a ha => hws4 a (List.mem_filter.mp ha).1)
      hcne
    · exact (digit_char_facts col.headI (hcol _ (headI_mem_of_ne_nil hcne))).2.1
    · have hcrne : col.reverse ≠ [] := by
        intro h
        exact hcne (by simpa using congrArg List.reverse h)
      have hmem : col.reverse.headI ∈ col :=
        List.mem_reverse.mp (headI_mem_of_ne_nil hcrne)
      exact (digit_char_facts _ (hcol _ hmem)).2.1
  have hy : parse_u16 col = .ok (digitsVal col) := parse_u16_digits col hcne hcol hcb
  have hcmdtrim : trimChars (verb ++ ws1) = verb := by
    have h := trimChars_sandwich [] verb ws1 (by intro a ha; cases ha) hws1 hvne
      (hv verb.headI (headI_mem_of_ne_nil hvne)).2.1
      (by
        have hvrne : verb.reverse ≠ [] := by
          intro h
          exact hvne (by simpa using congrArg List.reverse h)
        have hmem : verb.reverse.headI ∈ verb :=
          List.mem_reverse.mp (headI_mem_of_ne_nil hvrne)
        exact (hv _ hmem).2.1)
    rwa [List.nil_append] at h
  simp only [BoardCommand.try_from]
  rw [hmap, htrim, if_neg hpass, if_neg hquit, hsplit]
  dsimp only
  rw [hvtrim, hsplit2]
  dsimp only
  rw [hx]
  rw [hfilter, hytrim, hy, hcmdtrim]

/-- C8 counterexample: the claim asserts whitespace between the row number
and the comma is tolerated, naming the input "flag( 3 , 4 )"; but the code
parses the first numeric field without trimming it, so the trailing space
after the 3 makes the u16 parse fail and the parser returns
CoordinateParsing(InvalidDigit) instead of succeeding with SetMarkFlag. -/
theorem command_whitespace_cex :
    BoardCommand.try_from ("flag( 3 , 4 )".data)
        = .error (.CoordinateParsing .invalidDigit)
      ∧ ∀ cmd, BoardCommand.try_from ("flag( 3 , 4 )".data) ≠ .ok cmd := by
  refine ⟨rfl, ?_⟩
  intro cmd h
  rw [show BoardCommand.try_from ("flag( 3 , 4 )".data)
      = .error (.CoordinateParsing .invalidDigit) from rfl] at h
  exact Except.noConfusion h

/-- C8 (amended): for every well-formed command string built from a verb in
clear/flag/note/explore and two in-range digit fields, with arbitrary
whitespace around the whole string, between the verb and the opening
parenthesis, after the opening parenthesis, after the comma, and between
the column number and the closing parenthesis, the parser succeeds and
returns the corresponding command with the two parsed coordinates. The one
slot the original claim also allowed, whitespace between the row number and
the comma, is not tolerated: the first numeric field is parsed untrimmed. -/
theorem command_whitespace_tolerance
    (ws0 ws1 ws2 ws3 ws4 ws5 row col : List Char)
    (hws0 : ∀ c ∈ ws0, isWhitespaceChar c = true)
    (hws1 : ∀ c ∈ ws1, isWhitespaceChar c = true)
    (hws2 : ∀ c ∈ ws2, isWhitespaceChar c = true)
    (hws3 : ∀ c ∈ ws3, isWhitespaceChar c = true)
    (hws4 : ∀ c ∈ ws4, isWhitespaceChar c = true)
    (hws5 : ∀ c ∈ ws5, isWhitespaceChar c = true)
    (hrne : row ≠ []) (hrow : ∀ c ∈ row, c.isDigit = true)
    (hrb : digitsVal row ≤ 65535)
    (hcne : col ≠ []) (hcol : ∀ c ∈ col, c.isDigit = true)
    (hcb : digitsVal col ≤ 65535) :
    BoardCommand.try_from
        (ws0 ++ command_core "clear".data ws1 ws2 ws3 ws4 row col ++ ws5)
      = .ok (.ClearMark ⟨digitsVal row, digitsVal col⟩)
    ∧ BoardCommand.try_from
        (ws0 ++ command_core "flag".data ws1 ws2 ws3 ws4 row col ++ ws5)
      = .ok (.SetMarkFlag ⟨digitsVal row, digitsVal col⟩)
    ∧ BoardCommand.try_from
        (ws0 ++ command_core "note".data ws1 ws2 ws3 ws4 row col ++ ws5)
      = .ok (.SetMarkNote ⟨digitsVal row, digitsVal col⟩)
    ∧ BoardCommand.try_from
        (ws0 ++ command_core "explore".data ws1 ws2 ws3 ws4 row col ++ ws5)
      = .ok (.Explore ⟨digitsVal row, digitsVal col⟩) := by
  refine ⟨?_, ?_, ?_, ?_⟩
  · rw [try_from_wellformed "clear".data ws0 ws1 ws2 ws3 ws4 ws5 row col
      (by decide) (by decide) hws0 hws1 hws2 hws3 hws4 hws5
      hrne hrow hrb hcne hcol hcb]
    rfl
  · rw [try_from_wellformed "flag".data ws0 ws1 ws2 ws3 ws4 ws5 row col
      (by decide) (by decide) hws0 hws1 hws2 hws3 hws4 hws5
      hrne hrow hrb hcne hcol hcb]
    rfl
  · rw [try_from_wellformed "note".data ws0 ws1 ws2 ws3 ws4 ws5 row col
      (by decide) (by decide) hws0 hws1 hws2 hws3 hws4 hws5
      hrne hrow hrb hcne hcol hcb]
    rfl
  · rw [try_from_wellformed "explore".data ws0 ws1 ws2 ws3 ws4 ws5 row col
      (by decide) (by decide) hws0 hws1 hws2 hws3 hws4 hws5
      hrne hrow hrb hcne hcol hcb]
    rfl

/-- C8 witness: concrete whitespace in every tolerated slot, e.g. the flag
conjunct at the input "  flag ( 3, 4 ) ". -/
theorem command_whitespace_tolerance_witness :
    BoardCommand.try_from ("  flag ( 3, 4 ) ".data)
      = .ok (.SetMarkFlag ⟨3, 4⟩) := by
  have h := (command_whitespace_tolerance ("  ".data) (" ".data) (" ".data)
      (" ".data) (" ".data) (" ".data) ("3".data) ("4".data)
      (by decide) (by decide) (by decide) (by decide) (by decide) (by decide)
      (by decide) (by decide) (by decide)
      (by decide) (by decide) (by decide)).2.1
  exact h

end Minesweeper
